import Mathlib

/-
Verification development for the push_decode codec core.

Decoders are modelled as explicit state machines: `decode` consumes a
prefix of the input chunk and returns the new state together with the
unconsumed remainder (mirroring `decode_chunk`'s in-place shrinking of the
byte view), and `fin` models the consuming `end` call.  Bytes are `Nat`s
(always < 256 in real inputs).  Rust `Vec` capacity is tracked explicitly
where a claim is about it (`ByteVecDecoder`).
-/

namespace PushDecode

/-- The `missing` payload of the `UnexpectedEnd` error type. -/
structure UnexpectedEnd where
  missing : Nat
deriving DecidableEq, Repr

/-- The `Decoder` trait shape: `decode` is `decode_chunk` (returning the
shrunk byte view), `fin` is `end`. -/
structure Dec (σ ε α : Type) where
  decode : σ → List Nat → Except ε (σ × List Nat)
  fin : σ → Except ε α

/-- Driving protocol: feed chunks one by one through `decode_chunk`
(dropping any unconsumed remainder, as top-level callers do once a decoder
stops consuming), stop at the first error, finally call `end`. -/
def runD (d : Dec σ ε α) : σ → List (List Nat) → Except ε α
  | s, [] => d.fin s
  | s, c :: cs =>
    match d.decode s c with
    | .error e => .error e
    | .ok (s', _) => runD d s' cs

/-- ByteArrayDecoder<N>: the `MaybeUninit` buffer plus `len` is modelled as
the list of received bytes (length ≤ N). -/
def byteArrayDecode (N : Nat) (buf : List Nat) (bytes : List Nat) :
    Except UnexpectedEnd (List Nat × List Nat) :=
  let toCopy := min bytes.length (N - buf.length)
  .ok (buf ++ bytes.take toCopy, bytes.drop toCopy)

/-- ByteArrayDecoder<N> as a decoder. -/
def ByteArrayDecoder (N : Nat) : Dec (List Nat) UnexpectedEnd (List Nat) where
  decode := byteArrayDecode N
  fin := fun buf =>
    if buf.length < N then .error ⟨N - buf.length⟩ else .ok buf

/-- State of ByteVecDecoder: the vector contents, the required length
(a run-time field in the source) and the vector capacity (the one place
capacity matters for a claim). -/
structure ByteVecSt where
  buf : List Nat
  required : Nat
  cap : Nat
deriving DecidableEq, Repr

/-- `ByteVecDecoder::new(required)`: preallocates capacity for `required`. -/
def byteVecNew (required : Nat) : ByteVecSt := ⟨[], required, required⟩

/-- `ByteVecDecoder::with_reserve_limit(required, limit)`: preallocates
`min required limit`. -/
def byteVecWithReserveLimit (required limit : Nat) : ByteVecSt :=
  ⟨[], required, min required limit⟩

/-- ByteVecDecoder: `extend_from_slice` keeps capacity at least the
length; the decode logic itself never reads the capacity. -/
def ByteVecDecoder : Dec ByteVecSt UnexpectedEnd (List Nat) where
  decode := fun s bytes =>
    let toCopy := min bytes.length (s.required - s.buf.length)
    .ok (⟨s.buf ++ bytes.take toCopy, s.required,
      max s.cap (s.buf.length + toCopy)⟩, bytes.drop toCopy)
  fin := fun s =>
    if s.buf.length < s.required then .error ⟨s.required - s.buf.length⟩
    else .ok s.buf

/-- U8Decoder: `buf: Option<u8>`. -/
def U8Decoder : Dec (Option Nat) UnexpectedEnd Nat where
  decode := fun s bytes =>
    match s, bytes with
    | none, b :: rest => .ok (some b, rest)
    | s, bytes => .ok (s, bytes)
  fin := fun s =>
    match s with
    | some b => .ok b
    | none => .error ⟨1⟩

/-- Big-endian byte serialization of a `w`-byte integer. -/
def natToBeBytes : Nat → Nat → List Nat
  | 0, _ => []
  | w + 1, v => natToBeBytes w (v / 256) ++ [v % 256]

/-- Big-endian deserialization (`from_be_bytes`). -/
def natFromBeBytes (l : List Nat) : Nat := l.foldl (fun a b => a * 256 + b) 0

/-- IntDecoder<T, BigEndian>: delegates accumulation to the byte-array
decoder and converts at finalization only. -/
def IntDecoderBE (w : Nat) : Dec (List Nat) UnexpectedEnd Nat where
  decode := byteArrayDecode w
  fin := fun buf =>
    if buf.length < w then .error ⟨w - buf.length⟩
    else .ok (natFromBeBytes buf)

/-- Outcome of UTF-8 validation, mirroring `core::str::Utf8Error`:
`invalid v e` is an error with `valid_up_to = v` and `error_len = Some e`,
`incomplete v` is an error with `valid_up_to = v` and `error_len = None`. -/
inductive Utf8V where
  | ok : Utf8V
  | incomplete (validUpTo : Nat) : Utf8V
  | invalid (validUpTo : Nat) (errorLen : Nat) : Utf8V
deriving DecidableEq, Repr

/-- Shift the position in a validation outcome past `n` already-validated
bytes. -/
def vShift (n : Nat) : Utf8V → Utf8V
  | .ok => .ok
  | .incomplete v => .incomplete (v + n)
  | .invalid v e => .invalid (v + n) e

/-- Continuation byte 0x80..=0xBF. -/
def isCont (b : Nat) : Bool := decide (0x80 ≤ b ∧ b ≤ 0xBF)

/-- Valid second byte of a 3-byte sequence for lead byte `b`
(`core::str` validation table). -/
def valid3Second (b c : Nat) : Bool :=
  decide ((b = 0xE0 ∧ 0xA0 ≤ c ∧ c ≤ 0xBF) ∨
    (0xE1 ≤ b ∧ b ≤ 0xEC ∧ 0x80 ≤ c ∧ c ≤ 0xBF) ∨
    (b = 0xED ∧ 0x80 ≤ c ∧ c ≤ 0x9F) ∨
    (0xEE ≤ b ∧ b ≤ 0xEF ∧ 0x80 ≤ c ∧ c ≤ 0xBF))

/-- Valid second byte of a 4-byte sequence for lead byte `b`. -/
def valid4Second (b c : Nat) : Bool :=
  decide ((b = 0xF0 ∧ 0x90 ≤ c ∧ c ≤ 0xBF) ∨
    (0xF1 ≤ b ∧ b ≤ 0xF3 ∧ 0x80 ≤ c ∧ c ≤ 0xBF) ∨
    (b = 0xF4 ∧ 0x80 ≤ c ∧ c ≤ 0x8F))

/-- UTF-8 validation of a byte list, with `core::str::from_utf8`'s error
reporting: positions accumulate over completed characters. -/
def utf8V : List Nat → Utf8V
  | [] => .ok
  | b :: rest =>
    if b < 0x80 then vShift 1 (utf8V rest)
    else if 0xC2 ≤ b ∧ b ≤ 0xDF then
      match rest with
      | [] => .incomplete 0
      | c :: rest2 =>
        if isCont c then vShift 2 (utf8V rest2) else .invalid 0 1
    else if 0xE0 ≤ b ∧ b ≤ 0xEF then
      match rest with
      | [] => .incomplete 0
      | c :: rest2 =>
        if valid3Second b c then
          match rest2 with
          | [] => .incomplete 0
          | d :: rest3 =>
            if isCont d then vShift 3 (utf8V rest3) else .invalid 0 2
        else .invalid 0 1
    else if 0xF0 ≤ b ∧ b ≤ 0xF4 then
      match rest with
      | [] => .incomplete 0
      | c :: rest2 =>
        if valid4Second b c then
          match rest2 with
          | [] => .incomplete 0
          | d :: rest3 =>
            if isCont d then
              match rest3 with
              | [] => .incomplete 0
              | e :: rest4 =>
                if isCont e then vShift 4 (utf8V rest4) else .invalid 0 3
            else .invalid 0 2
        else .invalid 0 1
    else .invalid 0 1

/-- Utf8StringDecoder state: buffer, the proven-valid cursor, and the
required length (a run-time field in the source). -/
structure Utf8St where
  buf : List Nat
  validUpTo : Nat
  required : Nat
deriving DecidableEq, Repr

/-- `Utf8StringDecoder::new(len_bytes)`. -/
def utf8New (lenBytes : Nat) : Utf8St := ⟨[], 0, lenBytes⟩

/-- Error type of Utf8StringDecoder. -/
inductive Utf8Err where
  | invalidUtf8 (validUpTo : Nat) (errorLen : Option Nat)
  | unexpectedEnd (missing : Nat)
deriving DecidableEq, Repr

/-- One `decode_chunk` call of Utf8StringDecoder, returning the post-call
state, the remaining byte view and the optional error (the Rust method
mutates `self` before erroring on the slow path, which this captures).
The `reserve` call in the source only touches capacity, which this
decoder never observes. -/
def utf8Step (s : Utf8St) (bytes : List Nat) :
    Utf8St × List Nat × Option Utf8Err :=
  let toCopy := min bytes.length (s.required - s.buf.length)
  if toCopy = 0 then (s, bytes, none)
  else if s.validUpTo = s.buf.length then
    -- fast path: validate the incoming prefix directly, without copying
    match utf8V (bytes.take toCopy) with
    | .ok =>
      (⟨s.buf ++ bytes.take toCopy, s.validUpTo + toCopy, s.required⟩,
        bytes.drop toCopy, none)
    | .incomplete v =>
      (⟨s.buf ++ bytes.take toCopy, s.validUpTo + v, s.required⟩,
        bytes.drop toCopy, none)
    | .invalid v e => (s, bytes, some (.invalidUtf8 v (some e)))
  else
    -- slow path: copy first, then re-validate from the unresolved tail
    let buf2 := s.buf ++ bytes.take toCopy
    match utf8V (buf2.drop s.validUpTo) with
    | .ok => (⟨buf2, buf2.length, s.required⟩, bytes.drop toCopy, none)
    | .incomplete v =>
      (⟨buf2, s.validUpTo + v, s.required⟩, bytes.drop toCopy, none)
    | .invalid v e =>
      (⟨buf2, s.validUpTo, s.required⟩, bytes, some (.invalidUtf8 v (some e)))

/-- Utf8StringDecoder.  `end` returns the buffer (the UTF-8 bytes of the
produced string); when fewer bytes than required arrived it reports the
deficit, and when the buffer is full but not fully validated it re-runs
validation to manufacture the error.  (The `ok` fallback in the last
branch is unreachable under the decoder invariant; the source `unwrap`s
there.) -/
def Utf8StringDecoder : Dec Utf8St Utf8Err (List Nat) where
  decode := fun s bytes =>
    match utf8Step s bytes with
    | (s', rem, none) => .ok (s', rem)
    | (_, _, some e) => .error e
  fin := fun s =>
    if s.buf.length < s.required then
      .error (.unexpectedEnd (s.required - s.buf.length))
    else if s.validUpTo = s.buf.length then .ok s.buf
    else
      match utf8V s.buf with
      | .invalid v e => .error (.invalidUtf8 v (some e))
      | .incomplete v => .error (.invalidUtf8 v none)
      | .ok => .ok s.buf

/-- State of the decoders::Chain combinator (the `Errored`/`Panicked` sink
states are entered only by aborting calls and are never decoded from in
the driving protocol, which stops at the first error; they are therefore
not part of the reachable-state model). -/
inductive ChainSt (σA αA σB : Type) where
  | first (a : σA) (b : σB)
  | second (va : αA) (b : σB)

/-- decoders::Chain. -/
def ChainDecoder (A : Dec σA εA αA) (B : Dec σB εB αB) :
    Dec (ChainSt σA αA σB) (Sum εA εB) (αA × αB) where
  decode := fun s bytes =>
    match s with
    | .first a b =>
      match A.decode a bytes with
      | .error e => .error (.inl e)
      | .ok (a', rem) =>
        if rem.isEmpty then .ok (.first a' b, rem)
        else
          match A.fin a' with
          | .error e => .error (.inl e)
          | .ok va =>
            match B.decode b rem with
            | .error e => .error (.inr e)
            | .ok (b', rem2) => .ok (.second va b', rem2)
    | .second va b =>
      match B.decode b bytes with
      | .error e => .error (.inr e)
      | .ok (b', rem) => .ok (.second va b', rem)
  fin := fun s =>
    match s with
    | .first a b =>
      match A.fin a with
      | .error e => .error (.inl e)
      | .ok va =>
        match B.fin b with
        | .error e => .error (.inr e)
        | .ok vb => .ok (va, vb)
    | .second va b =>
      match B.fin b with
      | .error e => .error (.inr e)
      | .ok vb => .ok (va, vb)

/-- State of decoders::Then / decoders::ThenTry (sink states omitted as
for Chain). -/
inductive ThenSt (σA σB : Type) where
  | first (a : σA)
  | second (b : σB)

/-- decoders::Then: the second decoder has a fixed shape `B`; the one-shot
closure picks its initial state from the first stage's value. -/
def ThenDecoder (A : Dec σA εA αA) (B : Dec σB εB αB) (f : αA → σB) :
    Dec (ThenSt σA σB) (Sum εA εB) αB where
  decode := fun s bytes =>
    match s with
    | .first a =>
      match A.decode a bytes with
      | .error e => .error (.inl e)
      | .ok (a', rem) =>
        if rem.isEmpty then .ok (.first a', rem)
        else
          match A.fin a' with
          | .error e => .error (.inl e)
          | .ok va =>
            match B.decode (f va) rem with
            | .error e => .error (.inr e)
            | .ok (b', rem2) => .ok (.second b', rem2)
    | .second b =>
      match B.decode b bytes with
      | .error e => .error (.inr e)
      | .ok (b', rem) => .ok (.second b', rem)
  fin := fun s =>
    match s with
    | .first a =>
      match A.fin a with
      | .error e => .error (.inl e)
      | .ok va =>
        match B.fin (f va) with
        | .error e => .error (.inr e)
        | .ok vb => .ok vb
    | .second b =>
      match B.fin b with
      | .error e => .error (.inr e)
      | .ok vb => .ok vb

/-- decoders::ThenTry: all sub-errors are converted into one caller-chosen
error type via `injA`/`injB` (the two `From` impls), and the continuation
itself may fail. -/
def ThenTryDecoder (A : Dec σA εA αA) (B : Dec σB εB αB)
    (injA : εA → ε) (injB : εB → ε) (f : αA → Except ε σB) :
    Dec (ThenSt σA σB) ε αB where
  decode := fun s bytes =>
    match s with
    | .first a =>
      match A.decode a bytes with
      | .error e => .error (injA e)
      | .ok (a', rem) =>
        if rem.isEmpty then .ok (.first a', rem)
        else
          match A.fin a' with
          | .error e => .error (injA e)
          | .ok va =>
            match f va with
            | .error e => .error e
            | .ok b0 =>
              match B.decode b0 rem with
              | .error e => .error (injB e)
              | .ok (b', rem2) => .ok (.second b', rem2)
    | .second b =>
      match B.decode b bytes with
      | .error e => .error (injB e)
      | .ok (b', rem) => .ok (.second b', rem)
  fin := fun s =>
    match s with
    | .first a =>
      match A.fin a with
      | .error e => .error (injA e)
      | .ok va =>
        match f va with
        | .error e => .error e
        | .ok b0 =>
          match B.fin b0 with
          | .error e => .error (injB e)
          | .ok vb => .ok vb
    | .second b =>
      match B.fin b with
      | .error e => .error (injB e)
      | .ok vb => .ok vb

/-! ## Encoders -/

/-- The `Encoder` trait shape: `chunk` is `encoded_chunk`, `next` returns
the advanced state and the more-data flag. -/
structure Enc (σ : Type) where
  chunk : σ → List Nat
  next : σ → σ × Bool

/-- BytesEncoder: the state is the wrapped byte content; one chunk, then
always "no more data". -/
def BytesEncoderE : Enc (List Nat) where
  chunk := fun s => s
  next := fun s => (s, false)

/-- IntEncoder: the byte representation is computed at construction, after
which it behaves exactly as a single-chunk byte encoder. -/
def IntEncoderE : Enc (List Nat) where
  chunk := fun s => s
  next := fun s => (s, false)

/-- `IntEncoder::new_be` for a `w`-byte integer. -/
def intEncoderNewBe (w v : Nat) : List Nat := natToBeBytes w v

/-- IterEncoder state over byte-slice items (each item a BytesEncoder). -/
inductive IterSt where
  | encoding (current : List Nat) (remaining : List (List Nat))
  | done
deriving DecidableEq, Repr

/-- `IterEncoder::new`: skip items whose encoded chunk is empty until a
non-empty one is found or the iteration ends. -/
def iterNew : List (List Nat) → IterSt
  | [] => .done
  | x :: rest => if x = [] then iterNew rest else .encoding x rest

/-- The advancing loop of `IterEncoder::next` once the current item is
exhausted (byte-slice items are exhausted after their single chunk). -/
def iterAdvance : List (List Nat) → IterSt × Bool
  | [] => (.done, false)
  | x :: rest => if x = [] then iterAdvance rest else (.encoding x rest, true)

/-- IterEncoder over byte-slice items. -/
def IterEncoderE : Enc IterSt where
  chunk := fun s =>
    match s with
    | .encoding current _ => current
    | .done => []
  next := fun s =>
    match s with
    | .encoding _ remaining => iterAdvance remaining
    | .done => (.done, false)

/-- State of encoders::Chain: `first` is `None` once the first stage is
elided or exhausted. -/
structure ChainESt (σA σB : Type) where
  first : Option σA
  second : σB

/-- `encoders::Chain::new`: elide the first encoder when its chunk is
already empty. -/
def chainENew (A : Enc σA) (a : σA) (b : σB) : ChainESt σA σB :=
  if A.chunk a = [] then ⟨none, b⟩ else ⟨some a, b⟩

/-- encoders::Chain. -/
def ChainE (A : Enc σA) (B : Enc σB) : Enc (ChainESt σA σB) where
  chunk := fun s =>
    match s.first with
    | some a => A.chunk a
    | none => B.chunk s.second
  next := fun s =>
    match s.first with
    | some a =>
      match A.next a with
      | (a', true) => (⟨some a', s.second⟩, true)
      | (_, false) => (⟨none, s.second⟩, !(B.chunk s.second).isEmpty)
    | none =>
      match B.next s.second with
      | (b', r) => (⟨none, b'⟩, r)

/-- State of encoders::Then. -/
inductive ThenESt (σA σB : Type) where
  | first (a : σA)
  | second (b : σB)

/-- encoders::Then: the second encoder is constructed lazily by the
repeatable constructor `f` once the first is exhausted. -/
def ThenE (A : Enc σA) (B : Enc σB) (f : Unit → σB) : Enc (ThenESt σA σB) where
  chunk := fun s =>
    match s with
    | .first a => A.chunk a
    | .second b => B.chunk b
  next := fun s =>
    match s with
    | .first a =>
      match A.next a with
      | (a', true) => (.first a', true)
      | (_, false) =>
        let b := f ()
        (.second b, !(B.chunk b).isEmpty)
    | .second b =>
      match B.next b with
      | (b', r) => (.second b', r)

/-- `Encoder::write_to_vec`: append chunks while non-empty, advancing
until `next` reports no more data (fuel-bounded; every encoder here is
finite). -/
def writeToVec (E : Enc σ) : Nat → σ → List Nat
  | 0, _ => []
  | n + 1, s =>
    if E.chunk s = [] then []
    else
      E.chunk s ++
        match E.next s with
        | (s', true) => writeToVec E n s'
        | (_, false) => []

/-- EncoderPositionTracker: the wrapped encoder state plus the offset into
its current chunk. -/
structure Tracker (σ : Type) where
  enc : σ
  pos : Nat

/-- `EncoderPositionTracker::new`. -/
def trackerNew (s : σ) : Tracker σ := ⟨s, 0⟩

/-- `EncoderPositionTracker::encoded_chunk`: the unprocessed suffix of the
current chunk. -/
def trackerChunk (E : Enc σ) (t : Tracker σ) : List Nat :=
  (E.chunk t.enc).drop t.pos

/-- `EncoderPositionTracker::consume`: advance the offset; at the end of
the chunk advance the underlying encoder, resetting the offset only when
it reports more data. -/
def consume (E : Enc σ) (t : Tracker σ) (amount : Nat) : Tracker σ :=
  let pos := t.pos + amount
  if (E.chunk t.enc).length ≤ pos then
    match E.next t.enc with
    | (e', true) => ⟨e', 0⟩
    | (e', false) => ⟨e', pos⟩
  else ⟨t.enc, pos⟩

/-! ## Chunk-splitting laws for decoders -/

/-- A state that consumes nothing and never changes again (a finished
decoder being offered further bytes). -/
def Saturated (d : Dec σ ε α) (s : σ) : Prop :=
  ∀ zs, d.decode s zs = .ok (s, zs)

/-- Laws making a decoder's streaming behaviour invariant under chunk
splitting, up to the error normalization `nerr` (which may erase
position payloads that genuinely depend on the split, as the UTF-8
decoder's do). -/
structure DecLaws (d : Dec σ ε α) (Inv : σ → Prop) (nerr : ε → ε') : Prop where
  nil_ok : ∀ s, Inv s → d.decode s [] = .ok (s, [])
  inv_decode : ∀ s xs s' rem, Inv s → d.decode s xs = .ok (s', rem) → Inv s'
  sat_of_rem : ∀ s xs s' rem, Inv s → d.decode s xs = .ok (s', rem) →
    rem ≠ [] → Saturated d s'
  err_mono : ∀ s xs ys e, Inv s → d.decode s xs = .error e →
    ∃ e', d.decode s (xs ++ ys) = .error e' ∧ nerr e' = nerr e
  split_ok : ∀ s xs ys s', Inv s → d.decode s xs = .ok (s', []) →
    (∃ e e', d.decode s' ys = .error e ∧ d.decode s (xs ++ ys) = .error e' ∧
      nerr e' = nerr e) ∨
    (∃ s2 rem, d.decode s' ys = .ok (s2, rem) ∧
      d.decode s (xs ++ ys) = .ok (s2, rem))
  ext_rem : ∀ s xs ys s' rem, Inv s → d.decode s xs = .ok (s', rem) →
    rem ≠ [] → d.decode s (xs ++ ys) = .ok (s', rem ++ ys)

theorem runD_saturated (d : Dec σ ε α) (s : σ) (h : Saturated d s) :
    ∀ cs, runD d s cs = d.fin s := by
  intro cs
  induction cs with
  | nil => rfl
  | cons c cs ih => simp [runD, h c, ih]

/-- Master theorem: under the laws, running any chunk list gives the same
normalized outcome as running its concatenation as a single chunk. -/
theorem runD_split (d : Dec σ ε α) (Inv : σ → Prop) (nerr : ε → ε')
    (L : DecLaws d Inv nerr) :
    ∀ cs s, Inv s →
      (runD d s cs).mapError nerr = (runD d s [cs.flatten]).mapError nerr := by
  intro cs
  induction cs with
  | nil =>
    intro s hs
    simp [runD, List.flatten, L.nil_ok s hs]
  | cons c cs ih =>
    intro s hs
    have hjoin : (c :: cs).flatten = c ++ cs.flatten := by simp [List.flatten]
    rw [hjoin]
    rcases hdec : d.decode s c with e | ⟨s', rem⟩
    · -- first chunk already errors
      rcases L.err_mono s c cs.flatten e hs hdec with ⟨e', he', hne⟩
      simp [runD, hdec, he', Except.mapError, hne]
    · rcases Decidable.em (rem = []) with hrem | hrem
      · subst hrem
        have hs' := L.inv_decode s c s' [] hs hdec
        have hih := ih s' hs'
        rcases L.split_ok s c cs.flatten s' hs hdec with
          ⟨e, e', hys, hcat, hne⟩ | ⟨s2, rem2, hys, hcat⟩
        · simp only [runD, hdec, hih]
          simp [runD, hys, hcat, Except.mapError, hne]
        · simp only [runD, hdec, hih]
          simp [runD, hys, hcat]
      · have hsat := L.sat_of_rem s c s' rem hs hdec hrem
        have hcat := L.ext_rem s c cs.flatten s' rem hs hdec hrem
        simp [runD, hdec, hcat, runD_saturated d s' hsat]

/-! ### Leaf instances of the chunk-splitting laws -/

/-- Decoder invariant of ByteArrayDecoder: never more than N bytes. -/
def ByteArrayInv (N : Nat) (s : List Nat) : Prop := s.length ≤ N

theorem byteArrayDecode_eq (N : Nat) (s xs : List Nat) :
    byteArrayDecode N s xs =
      .ok (s ++ xs.take (min xs.length (N - s.length)),
        xs.drop (min xs.length (N - s.length))) := rfl

theorem byteArray_saturated (N : Nat) (s : List Nat) (h : N ≤ s.length) :
    Saturated (ByteArrayDecoder N) s := by
  intro zs
  have h0 : N - s.length = 0 := by omega
  simp [ByteArrayDecoder, byteArrayDecode_eq, h0]

theorem byteArray_laws (N : Nat) :
    DecLaws (ByteArrayDecoder N) (ByteArrayInv N) (id : UnexpectedEnd → _) := by
  constructor
  · intro s _
    simp [ByteArrayDecoder, byteArrayDecode]
  · intro s xs s' rem hs h
    simp only [ByteArrayInv] at hs ⊢
    simp only [ByteArrayDecoder, byteArrayDecode_eq, Except.ok.injEq,
      Prod.mk.injEq] at h
    obtain ⟨hs', _⟩ := h
    subst hs'
    simp only [List.length_append, List.length_take]
    omega
  · intro s xs s' rem hs h hrem
    simp only [ByteArrayInv] at hs
    simp only [ByteArrayDecoder, byteArrayDecode_eq, Except.ok.injEq,
      Prod.mk.injEq] at h
    obtain ⟨hs', hr⟩ := h
    have hne : ¬ xs.length ≤ min xs.length (N - s.length) := by
      intro hle
      exact hrem (hr ▸ List.drop_eq_nil_iff.2 hle)
    apply byteArray_saturated
    subst hs'
    simp only [List.length_append, List.length_take]
    omega
  · intro s xs ys e _ h
    simp [ByteArrayDecoder, byteArrayDecode_eq] at h
  · intro s xs ys s' hs h
    right
    simp only [ByteArrayInv] at hs
    simp only [ByteArrayDecoder, byteArrayDecode_eq, Except.ok.injEq,
      Prod.mk.injEq] at h
    obtain ⟨hs', hr⟩ := h
    have hxs : min xs.length (N - s.length) = xs.length := by
      have := List.drop_eq_nil_iff.1 hr
      omega
    have hs'e : s' = s ++ xs := by
      rw [← hs', hxs, List.take_length]
    subst hs'e
    refine ⟨_, _, rfl, ?_⟩
    have hlen : (s ++ xs).length = s.length + xs.length := by simp
    have htc3 : min (xs ++ ys).length (N - s.length) =
        xs.length + min ys.length (N - (s ++ xs).length) := by
      simp only [List.length_append, hlen]
      omega
    simp only [ByteArrayDecoder, byteArrayDecode_eq, htc3, List.take_append,
      List.drop_append, List.append_assoc]
  · intro s xs ys s' rem hs h hrem
    simp only [ByteArrayInv] at hs
    simp only [ByteArrayDecoder, byteArrayDecode_eq, Except.ok.injEq,
      Prod.mk.injEq] at h ⊢
    obtain ⟨hs', hr⟩ := h
    have hne : ¬ xs.length ≤ min xs.length (N - s.length) := by
      intro hle
      exact hrem (hr ▸ List.drop_eq_nil_iff.2 hle)
    have htc : min xs.length (N - s.length) = N - s.length := by omega
    have htc3 : min (xs ++ ys).length (N - s.length) = N - s.length := by
      simp only [List.length_append]
      omega
    have hle : N - s.length ≤ xs.length := by omega
    constructor
    · rw [htc3, ← hs', htc, List.take_append_of_le_length hle]
    · rw [htc3, ← hr, htc, List.drop_append_of_le_length hle]

/-- Decoder invariant of ByteVecDecoder: the vector holds at most the
required number of bytes and its capacity covers its length. -/
def ByteVecInv (s : ByteVecSt) : Prop :=
  s.buf.length ≤ s.required ∧ s.buf.length ≤ s.cap

theorem byteVecDecode_eq (s : ByteVecSt) (xs : List Nat) :
    ByteVecDecoder.decode s xs =
      .ok (⟨s.buf ++ xs.take (min xs.length (s.required - s.buf.length)),
        s.required,
        max s.cap (s.buf.length + min xs.length (s.required - s.buf.length))⟩,
        xs.drop (min xs.length (s.required - s.buf.length))) := rfl

theorem byteVec_saturated (s : ByteVecSt) (hfull : s.required ≤ s.buf.length)
    (hcap : s.buf.length ≤ s.cap) : Saturated ByteVecDecoder s := by
  intro zs
  obtain ⟨buf, req, cap⟩ := s
  simp only at hfull hcap
  have h0 : req - buf.length = 0 := by omega
  simp [byteVecDecode_eq, h0, Nat.max_eq_left hcap]

theorem byteVec_laws :
    DecLaws ByteVecDecoder ByteVecInv (id : UnexpectedEnd → _) := by
  constructor
  · intro s hs
    obtain ⟨buf, req, cap⟩ := s
    obtain ⟨h1, h2⟩ := hs
    simp only at h1 h2
    simp [byteVecDecode_eq, Nat.max_eq_left h2]
  · intro s xs s' rem hs h
    obtain ⟨h1, h2⟩ := hs
    simp only [byteVecDecode_eq, Except.ok.injEq, Prod.mk.injEq] at h
    obtain ⟨hs', _⟩ := h
    subst hs'
    constructor
    · simp only [List.length_append, List.length_take]
      omega
    · simp only [List.length_append, List.length_take]
      omega
  · intro s xs s' rem hs h hrem
    obtain ⟨h1, h2⟩ := hs
    simp only [byteVecDecode_eq, Except.ok.injEq, Prod.mk.injEq] at h
    obtain ⟨hs', hr⟩ := h
    have hne : ¬ xs.length ≤ min xs.length (s.required - s.buf.length) := by
      intro hle
      exact hrem (hr ▸ List.drop_eq_nil_iff.2 hle)
    apply byteVec_saturated
    · subst hs'
      simp only [List.length_append, List.length_take]
      omega
    · subst hs'
      simp only [List.length_append, List.length_take]
      omega
  · intro s xs ys e _ h
    simp [byteVecDecode_eq] at h
  · intro s xs ys s' hs h
    right
    obtain ⟨h1, h2⟩ := hs
    simp only [byteVecDecode_eq, Except.ok.injEq, Prod.mk.injEq] at h
    obtain ⟨hs', hr⟩ := h
    have hxs : min xs.length (s.required - s.buf.length) = xs.length := by
      have := List.drop_eq_nil_iff.1 hr
      omega
    rw [hxs, List.take_length] at hs'
    refine ⟨_, _, rfl, ?_⟩
    have hxle : xs.length ≤ s.required - s.buf.length := by omega
    have hb : s'.buf = s.buf ++ xs := by rw [← hs']
    have hq : s'.required = s.required := by rw [← hs']
    have hc : s'.cap = max s.cap (s.buf.length + xs.length) := by rw [← hs']
    have hlen : s'.buf.length = s.buf.length + xs.length := by
      rw [hb]; simp
    have htc3 : min (xs ++ ys).length (s.required - s.buf.length) =
        xs.length + min ys.length (s'.required - s'.buf.length) := by
      simp only [List.length_append, hq, hlen]
      omega
    simp only [byteVecDecode_eq, htc3, List.take_append, List.drop_append,
      Except.ok.injEq, Prod.mk.injEq, ByteVecSt.mk.injEq]
    refine ⟨⟨?_, ?_, ?_⟩, trivial⟩
    · rw [hb, List.append_assoc]
    · rw [hq]
    · rw [hc, hlen, hq]
      omega
  · intro s xs ys s' rem hs h hrem
    obtain ⟨h1, h2⟩ := hs
    simp only [byteVecDecode_eq, Except.ok.injEq, Prod.mk.injEq] at h ⊢
    obtain ⟨hs', hr⟩ := h
    have hne : ¬ xs.length ≤ min xs.length (s.required - s.buf.length) := by
      intro hle
      exact hrem (hr ▸ List.drop_eq_nil_iff.2 hle)
    have htc : min xs.length (s.required - s.buf.length) =
        s.required - s.buf.length := by omega
    have htc3 : min (xs ++ ys).length (s.required - s.buf.length) =
        s.required - s.buf.length := by
      simp only [List.length_append]
      omega
    have hle : s.required - s.buf.length ≤ xs.length := by omega
    constructor
    · rw [htc3, ← hs', htc, List.take_append_of_le_length hle]
    · rw [htc3, ← hr, htc, List.drop_append_of_le_length hle]

theorem u8_laws :
    DecLaws U8Decoder (fun _ => True) (id : UnexpectedEnd → _) := by
  constructor
  · intro s _
    cases s <;> rfl
  · intro s xs s' rem _ _
    trivial
  · intro s xs s' rem _ h hrem
    cases s with
    | some b =>
      simp only [U8Decoder, Except.ok.injEq, Prod.mk.injEq] at h
      obtain ⟨hs', _⟩ := h
      subst hs'
      intro zs
      rfl
    | none =>
      cases xs with
      | nil =>
        simp only [U8Decoder, Except.ok.injEq, Prod.mk.injEq] at h
        exact absurd h.2.symm hrem
      | cons b rest =>
        simp only [U8Decoder, Except.ok.injEq, Prod.mk.injEq] at h
        obtain ⟨hs', _⟩ := h
        subst hs'
        intro zs
        rfl
  · intro s xs ys e _ h
    cases s <;> cases xs <;> simp [U8Decoder] at h
  · intro s xs ys s' _ h
    right
    cases s with
    | some b =>
      simp only [U8Decoder, Except.ok.injEq, Prod.mk.injEq] at h
      obtain ⟨hs', hxs⟩ := h
      subst hs'
      subst hxs
      simp only [List.nil_append]
      cases ys <;> exact ⟨_, _, rfl, rfl⟩
    | none =>
      cases xs with
      | nil =>
        simp only [U8Decoder, Except.ok.injEq, Prod.mk.injEq] at h
        obtain ⟨hs', _⟩ := h
        subst hs'
        simp only [List.nil_append]
        cases ys <;> exact ⟨_, _, rfl, rfl⟩
      | cons b rest =>
        simp only [U8Decoder, Except.ok.injEq, Prod.mk.injEq] at h
        obtain ⟨hs', hrest⟩ := h
        subst hs'
        have hre : rest = [] := hrest
        subst hre
        simp only [List.cons_append, List.nil_append]
        exact ⟨_, _, rfl, rfl⟩
  · intro s xs ys s' rem _ h hrem
    cases s with
    | some b =>
      simp only [U8Decoder, Except.ok.injEq, Prod.mk.injEq] at h
      obtain ⟨hs', hxs⟩ := h
      subst hs'
      subst hxs
      rfl
    | none =>
      cases xs with
      | nil =>
        simp only [U8Decoder, Except.ok.injEq, Prod.mk.injEq] at h
        exact absurd h.2.symm hrem
      | cons b rest =>
        simp only [U8Decoder, Except.ok.injEq, Prod.mk.injEq] at h
        obtain ⟨hs', hrest⟩ := h
        subst hs'
        subst hrest
        rfl

/-! ### UTF-8 validator lemmas -/

theorem vShift_zero (r : Utf8V) : vShift 0 r = r := by
  cases r <;> rfl

theorem vShift_comp (m n : Nat) (r : Utf8V) :
    vShift m (vShift n r) = vShift (n + m) r := by
  cases r <;> simp [vShift, Nat.add_assoc]

theorem vShift_eq_ok {n : Nat} {r : Utf8V} : vShift n r = .ok ↔ r = .ok := by
  cases r <;> simp [vShift]

theorem vShift_eq_incomplete {n v : Nat} {r : Utf8V} :
    vShift n r = .incomplete v ↔ ∃ v0, r = .incomplete v0 ∧ v = v0 + n := by
  cases r <;> simp [vShift, eq_comm]

theorem vShift_eq_invalid {n v e : Nat} {r : Utf8V} :
    vShift n r = .invalid v e ↔ ∃ v0, r = .invalid v0 e ∧ v = v0 + n := by
  cases r with
  | ok => simp [vShift]
  | incomplete v1 => simp [vShift]
  | invalid v1 e1 =>
    simp only [vShift, Utf8V.invalid.injEq]
    constructor
    · rintro ⟨h1, h2⟩
      exact ⟨v1, ⟨rfl, h2⟩, by omega⟩
    · rintro ⟨v0, ⟨hv0, he0⟩, h1⟩
      exact ⟨by omega, he0⟩

theorem utf8V_ascii (b : Nat) (rest : List Nat) (h : b < 0x80) :
    utf8V (b :: rest) = vShift 1 (utf8V rest) := by
  rw [utf8V.eq_def]
  simp [h]

theorem utf8V_lead2_nil (b : Nat) (h1 : ¬ b < 0x80)
    (h2 : 0xC2 ≤ b ∧ b ≤ 0xDF) : utf8V [b] = .incomplete 0 := by
  rw [utf8V.eq_def]
  simp [h1, h2]

theorem utf8V_lead2_cons (b c : Nat) (rest2 : List Nat) (h1 : ¬ b < 0x80)
    (h2 : 0xC2 ≤ b ∧ b ≤ 0xDF) :
    utf8V (b :: c :: rest2) =
      if isCont c then vShift 2 (utf8V rest2) else .invalid 0 1 := by
  rw [utf8V.eq_def]
  simp [h1, h2]

theorem utf8V_lead3_nil (b : Nat) (h1 : ¬ b < 0x80)
    (h2 : ¬ (0xC2 ≤ b ∧ b ≤ 0xDF)) (h3 : 0xE0 ≤ b ∧ b ≤ 0xEF) :
    utf8V [b] = .incomplete 0 := by
  rw [utf8V.eq_def]
  simp [h1, h2, h3]

theorem utf8V_lead3_one (b c : Nat) (h1 : ¬ b < 0x80)
    (h2 : ¬ (0xC2 ≤ b ∧ b ≤ 0xDF)) (h3 : 0xE0 ≤ b ∧ b ≤ 0xEF) :
    utf8V [b, c] =
      if valid3Second b c then .incomplete 0 else .invalid 0 1 := by
  rw [utf8V.eq_def]
  simp [h1, h2, h3]

theorem utf8V_lead3_cons (b c d : Nat) (rest3 : List Nat) (h1 : ¬ b < 0x80)
    (h2 : ¬ (0xC2 ≤ b ∧ b ≤ 0xDF)) (h3 : 0xE0 ≤ b ∧ b ≤ 0xEF) :
    utf8V (b :: c :: d :: rest3) =
      if valid3Second b c then
        (if isCont d then vShift 3 (utf8V rest3) else .invalid 0 2)
      else .invalid 0 1 := by
  rw [utf8V.eq_def]
  simp [h1, h2, h3]

theorem utf8V_lead4_nil (b : Nat) (h1 : ¬ b < 0x80)
    (h2 : ¬ (0xC2 ≤ b ∧ b ≤ 0xDF)) (h3 : ¬ (0xE0 ≤ b ∧ b ≤ 0xEF))
    (h4 : 0xF0 ≤ b ∧ b ≤ 0xF4) : utf8V [b] = .incomplete 0 := by
  rw [utf8V.eq_def]
  simp [h1, h2, h3, h4]

theorem utf8V_lead4_one (b c : Nat) (h1 : ¬ b < 0x80)
    (h2 : ¬ (0xC2 ≤ b ∧ b ≤ 0xDF)) (h3 : ¬ (0xE0 ≤ b ∧ b ≤ 0xEF))
    (h4 : 0xF0 ≤ b ∧ b ≤ 0xF4) :
    utf8V [b, c] =
      if valid4Second b c then .incomplete 0 else .invalid 0 1 := by
  rw [utf8V.eq_def]
  simp [h1, h2, h3, h4]

theorem utf8V_lead4_two (b c d : Nat) (h1 : ¬ b < 0x80)
    (h2 : ¬ (0xC2 ≤ b ∧ b ≤ 0xDF)) (h3 : ¬ (0xE0 ≤ b ∧ b ≤ 0xEF))
    (h4 : 0xF0 ≤ b ∧ b ≤ 0xF4) :
    utf8V [b, c, d] =
      if valid4Second b c then
        (if isCont d then .incomplete 0 else .invalid 0 2)
      else .invalid 0 1 := by
  rw [utf8V.eq_def]
  simp [h1, h2, h3, h4]

theorem utf8V_lead4_cons (b c d e : Nat) (rest4 : List Nat)
    (h1 : ¬ b < 0x80) (h2 : ¬ (0xC2 ≤ b ∧ b ≤ 0xDF))
    (h3 : ¬ (0xE0 ≤ b ∧ b ≤ 0xEF)) (h4 : 0xF0 ≤ b ∧ b ≤ 0xF4) :
    utf8V (b :: c :: d :: e :: rest4) =
      if valid4Second b c then
        (if isCont d then
          (if isCont e then vShift 4 (utf8V rest4) else .invalid 0 3)
        else .invalid 0 2)
      else .invalid 0 1 := by
  rw [utf8V.eq_def]
  simp [h1, h2, h3, h4]

theorem utf8V_bad (b : Nat) (rest : List Nat) (h1 : ¬ b < 0x80)
    (h2 : ¬ (0xC2 ≤ b ∧ b ≤ 0xDF)) (h3 : ¬ (0xE0 ≤ b ∧ b ≤ 0xEF))
    (h4 : ¬ (0xF0 ≤ b ∧ b ≤ 0xF4)) :
    utf8V (b :: rest) = .invalid 0 1 := by
  cases rest <;> (rw [utf8V.eq_def]; simp [h1, h2, h3, h4])

theorem utf8V_lead3_badsecond (b c : Nat) (rest2 : List Nat)
    (h1 : ¬ b < 0x80) (h2 : ¬ (0xC2 ≤ b ∧ b ≤ 0xDF))
    (h3 : 0xE0 ≤ b ∧ b ≤ 0xEF) (hnv : ¬ valid3Second b c = true) :
    utf8V (b :: c :: rest2) = .invalid 0 1 := by
  cases rest2 with
  | nil => rw [utf8V_lead3_one b c h1 h2 h3, if_neg hnv]
  | cons d rest3 => rw [utf8V_lead3_cons b c d rest3 h1 h2 h3, if_neg hnv]

theorem utf8V_lead4_badsecond (b c : Nat) (rest2 : List Nat)
    (h1 : ¬ b < 0x80) (h2 : ¬ (0xC2 ≤ b ∧ b ≤ 0xDF))
    (h3 : ¬ (0xE0 ≤ b ∧ b ≤ 0xEF)) (h4 : 0xF0 ≤ b ∧ b ≤ 0xF4)
    (hnv : ¬ valid4Second b c = true) :
    utf8V (b :: c :: rest2) = .invalid 0 1 := by
  cases rest2 with
  | nil => rw [utf8V_lead4_one b c h1 h2 h3 h4, if_neg hnv]
  | cons d rest3 =>
    cases rest3 with
    | nil => rw [utf8V_lead4_two b c d h1 h2 h3 h4, if_neg hnv]
    | cons e rest4 =>
      rw [utf8V_lead4_cons b c d e rest4 h1 h2 h3 h4, if_neg hnv]

theorem utf8V_lead4_badthird (b c d : Nat) (rest3 : List Nat)
    (h1 : ¬ b < 0x80) (h2 : ¬ (0xC2 ≤ b ∧ b ≤ 0xDF))
    (h3 : ¬ (0xE0 ≤ b ∧ b ≤ 0xEF)) (h4 : 0xF0 ≤ b ∧ b ≤ 0xF4)
    (hv : valid4Second b c = true) (hnc : ¬ isCont d = true) :
    utf8V (b :: c :: d :: rest3) = .invalid 0 2 := by
  cases rest3 with
  | nil => rw [utf8V_lead4_two b c d h1 h2 h3 h4, if_pos hv, if_neg hnc]
  | cons e rest4 =>
    rw [utf8V_lead4_cons b c d e rest4 h1 h2 h3 h4, if_pos hv, if_neg hnc]

/-- Combined append behaviour of the validator: a fully valid list shifts
validation of the continuation; an incomplete list defers to revalidating
its unresolved tail; a definite error persists unchanged. -/
def AppendP (B : List Nat) : Prop := ∀ C : List Nat,
  (utf8V B = .ok → utf8V (B ++ C) = vShift B.length (utf8V C)) ∧
  (∀ v, utf8V B = .incomplete v → v < B.length ∧
    utf8V (B ++ C) = vShift v (utf8V (B.drop v ++ C))) ∧
  (∀ v e, utf8V B = .invalid v e → utf8V (B ++ C) = .invalid v e)

theorem utf8V_append (B : List Nat) : AppendP B := by
  induction B using utf8V.induct with
  | case1 =>
    intro C
    refine ⟨fun _ => ?_, fun v h => by simp [utf8V] at h,
      fun v e h => by simp [utf8V] at h⟩
    simp [vShift_zero]
  | case2 c rest2 hc ih =>
    intro C
    have hB : utf8V (c :: rest2) = vShift 1 (utf8V rest2) :=
      utf8V_ascii c rest2 hc
    have hBC : utf8V (c :: (rest2 ++ C)) = vShift 1 (utf8V (rest2 ++ C)) :=
      utf8V_ascii c _ hc
    refine ⟨?_, ?_, ?_⟩
    · intro h
      rw [hB, vShift_eq_ok] at h
      simp only [List.cons_append, hBC, (ih C).1 h, vShift_comp,
        List.length_cons]
    · intro v h
      rw [hB, vShift_eq_incomplete] at h
      obtain ⟨v0, h0, hv⟩ := h
      obtain ⟨hlt, heq⟩ := (ih C).2.1 v0 h0
      subst hv
      refine ⟨by simp; omega, ?_⟩
      simp only [List.cons_append, hBC, heq, vShift_comp,
        List.drop_succ_cons]
    · intro v e h
      rw [hB, vShift_eq_invalid] at h
      obtain ⟨v0, h0, hv⟩ := h
      have heq := (ih C).2.2 v0 e h0
      subst hv
      simp only [List.cons_append, hBC, heq, vShift]
  | case3 c h1 h2 =>
    intro C
    have hB := utf8V_lead2_nil c h1 h2
    refine ⟨fun h => by simp [hB] at h, ?_, fun v e h => by simp [hB] at h⟩
    intro v h
    rw [hB] at h
    obtain hv := (Utf8V.incomplete.inj h.symm)
    subst hv
    exact ⟨by simp, by simp [vShift_zero]⟩
  | case4 c h1 h2 c1 rest2 hcont ih =>
    intro C
    have hB : utf8V (c :: c1 :: rest2) = vShift 2 (utf8V rest2) := by
      rw [utf8V_lead2_cons c c1 rest2 h1 h2, if_pos hcont]
    have hBC : utf8V (c :: c1 :: (rest2 ++ C)) =
        vShift 2 (utf8V (rest2 ++ C)) := by
      rw [utf8V_lead2_cons c c1 _ h1 h2, if_pos hcont]
    refine ⟨?_, ?_, ?_⟩
    · intro h
      rw [hB, vShift_eq_ok] at h
      simp only [List.cons_append, hBC, (ih C).1 h, vShift_comp,
        List.length_cons]
    · intro v h
      rw [hB, vShift_eq_incomplete] at h
      obtain ⟨v0, h0, hv⟩ := h
      obtain ⟨hlt, heq⟩ := (ih C).2.1 v0 h0
      subst hv
      refine ⟨by simp; omega, ?_⟩
      have hdrop : (c :: c1 :: rest2).drop (v0 + 2) = rest2.drop v0 := by
        rw [show v0 + 2 = v0 + 1 + 1 by omega]
        simp [List.drop_succ_cons]
      simp only [List.cons_append, hBC, heq, vShift_comp, hdrop]
    · intro v e h
      rw [hB, vShift_eq_invalid] at h
      obtain ⟨v0, h0, hv⟩ := h
      have heq := (ih C).2.2 v0 e h0
      subst hv
      simp only [List.cons_append, hBC, heq, vShift]
  | case5 c h1 h2 c1 rest2 hnc =>
    intro C
    have hB : utf8V (c :: c1 :: rest2) = .invalid 0 1 := by
      rw [utf8V_lead2_cons c c1 rest2 h1 h2, if_neg hnc]
    have hBC : utf8V (c :: c1 :: (rest2 ++ C)) = .invalid 0 1 := by
      rw [utf8V_lead2_cons c c1 _ h1 h2, if_neg hnc]
    refine ⟨fun h => by simp [hB] at h, fun v h => by simp [hB] at h, ?_⟩
    intro v e h
    rw [hB] at h
    obtain ⟨hv, he⟩ := Utf8V.invalid.inj h.symm
    subst hv
    subst he
    simpa using hBC
  | case6 c h1 h2 h3 =>
    intro C
    have hB := utf8V_lead3_nil c h1 h2 h3
    refine ⟨fun h => by simp [hB] at h, ?_, fun v e h => by simp [hB] at h⟩
    intro v h
    rw [hB] at h
    obtain hv := (Utf8V.incomplete.inj h.symm)
    subst hv
    exact ⟨by simp, by simp [vShift_zero]⟩
  | case7 c h1 h2 h3 c1 hv3 =>
    intro C
    have hB : utf8V [c, c1] = .incomplete 0 := by
      rw [utf8V_lead3_one c c1 h1 h2 h3, if_pos hv3]
    refine ⟨fun h => by simp [hB] at h, ?_, fun v e h => by simp [hB] at h⟩
    intro v h
    rw [hB] at h
    obtain hv := (Utf8V.incomplete.inj h.symm)
    subst hv
    exact ⟨by simp, by simp [vShift_zero]⟩
  | case8 c h1 h2 h3 c1 hv3 c2 rest2 hcont ih =>
    intro C
    have hB : utf8V (c :: c1 :: c2 :: rest2) = vShift 3 (utf8V rest2) := by
      rw [utf8V_lead3_cons c c1 c2 rest2 h1 h2 h3, if_pos hv3, if_pos hcont]
    have hBC : utf8V (c :: c1 :: c2 :: (rest2 ++ C)) =
        vShift 3 (utf8V (rest2 ++ C)) := by
      rw [utf8V_lead3_cons c c1 c2 _ h1 h2 h3, if_pos hv3, if_pos hcont]
    refine ⟨?_, ?_, ?_⟩
    · intro h
      rw [hB, vShift_eq_ok] at h
      simp only [List.cons_append, hBC, (ih C).1 h, vShift_comp,
        List.length_cons]
    · intro v h
      rw [hB, vShift_eq_incomplete] at h
      obtain ⟨v0, h0, hv⟩ := h
      obtain ⟨hlt, heq⟩ := (ih C).2.1 v0 h0
      subst hv
      refine ⟨by simp; omega, ?_⟩
      have hdrop : (c :: c1 :: c2 :: rest2).drop (v0 + 3) = rest2.drop v0 := by
        rw [show v0 + 3 = v0 + 1 + 1 + 1 by omega]
        simp [List.drop_succ_cons]
      simp only [List.cons_append, hBC, heq, vShift_comp, hdrop]
    · intro v e h
      rw [hB, vShift_eq_invalid] at h
      obtain ⟨v0, h0, hv⟩ := h
      have heq := (ih C).2.2 v0 e h0
      subst hv
      simp only [List.cons_append, hBC, heq, vShift]
  | case9 c h1 h2 h3 c1 hv3 c2 rest2 hnc =>
    intro C
    have hB : utf8V (c :: c1 :: c2 :: rest2) = .invalid 0 2 := by
      rw [utf8V_lead3_cons c c1 c2 rest2 h1 h2 h3, if_pos hv3, if_neg hnc]
    have hBC : utf8V (c :: c1 :: c2 :: (rest2 ++ C)) = .invalid 0 2 := by
      rw [utf8V_lead3_cons c c1 c2 _ h1 h2 h3, if_pos hv3, if_neg hnc]
    refine ⟨fun h => by simp [hB] at h, fun v h => by simp [hB] at h, ?_⟩
    intro v e h
    rw [hB] at h
    obtain ⟨hv, he⟩ := Utf8V.invalid.inj h.symm
    subst hv
    subst he
    simpa using hBC
  | case10 c h1 h2 h3 c1 rest2 hnv =>
    intro C
    have hB : utf8V (c :: c1 :: rest2) = .invalid 0 1 :=
      utf8V_lead3_badsecond c c1 rest2 h1 h2 h3 hnv
    have hBC : utf8V (c :: c1 :: (rest2 ++ C)) = .invalid 0 1 :=
      utf8V_lead3_badsecond c c1 _ h1 h2 h3 hnv
    refine ⟨fun h => by simp [hB] at h, fun v h => by simp [hB] at h, ?_⟩
    intro v e h
    rw [hB] at h
    obtain ⟨hv, he⟩ := Utf8V.invalid.inj h.symm
    subst hv
    subst he
    simpa using hBC
  | case11 c h1 h2 h3 h4 =>
    intro C
    have hB := utf8V_lead4_nil c h1 h2 h3 h4
    refine ⟨fun h => by simp [hB] at h, ?_, fun v e h => by simp [hB] at h⟩
    intro v h
    rw [hB] at h
    obtain hv := (Utf8V.incomplete.inj h.symm)
    subst hv
    exact ⟨by simp, by simp [vShift_zero]⟩
  | case12 c h1 h2 h3 h4 c1 hv4 =>
    intro C
    have hB : utf8V [c, c1] = .incomplete 0 := by
      rw [utf8V_lead4_one c c1 h1 h2 h3 h4, if_pos hv4]
    refine ⟨fun h => by simp [hB] at h, ?_, fun v e h => by simp [hB] at h⟩
    intro v h
    rw [hB] at h
    obtain hv := (Utf8V.incomplete.inj h.symm)
    subst hv
    exact ⟨by simp, by simp [vShift_zero]⟩
  | case13 c h1 h2 h3 h4 c1 hv4 c2 hcont =>
    intro C
    have hB : utf8V [c, c1, c2] = .incomplete 0 := by
      rw [utf8V_lead4_two c c1 c2 h1 h2 h3 h4, if_pos hv4, if_pos hcont]
    refine ⟨fun h => by simp [hB] at h, ?_, fun v e h => by simp [hB] at h⟩
    intro v h
    rw [hB] at h
    obtain hv := (Utf8V.incomplete.inj h.symm)
    subst hv
    exact ⟨by simp, by simp [vShift_zero]⟩
  | case14 c h1 h2 h3 h4 c1 hv4 c2 hcont2 c3 rest2 hcont3 ih =>
    intro C
    have hB : utf8V (c :: c1 :: c2 :: c3 :: rest2) =
        vShift 4 (utf8V rest2) := by
      rw [utf8V_lead4_cons c c1 c2 c3 rest2 h1 h2 h3 h4, if_pos hv4,
        if_pos hcont2, if_pos hcont3]
    have hBC : utf8V (c :: c1 :: c2 :: c3 :: (rest2 ++ C)) =
        vShift 4 (utf8V (rest2 ++ C)) := by
      rw [utf8V_lead4_cons c c1 c2 c3 _ h1 h2 h3 h4, if_pos hv4,
        if_pos hcont2, if_pos hcont3]
    refine ⟨?_, ?_, ?_⟩
    · intro h
      rw [hB, vShift_eq_ok] at h
      simp only [List.cons_append, hBC, (ih C).1 h, vShift_comp,
        List.length_cons]
    · intro v h
      rw [hB, vShift_eq_incomplete] at h
      obtain ⟨v0, h0, hv⟩ := h
      obtain ⟨hlt, heq⟩ := (ih C).2.1 v0 h0
      subst hv
      refine ⟨by simp; omega, ?_⟩
      have hdrop : (c :: c1 :: c2 :: c3 :: rest2).drop (v0 + 4) =
          rest2.drop v0 := by
        rw [show v0 + 4 = v0 + 1 + 1 + 1 + 1 by omega]
        simp [List.drop_succ_cons]
      simp only [List.cons_append, hBC, heq, vShift_comp, hdrop]
    · intro v e h
      rw [hB, vShift_eq_invalid] at h
      obtain ⟨v0, h0, hv⟩ := h
      have heq := (ih C).2.2 v0 e h0
      subst hv
      simp only [List.cons_append, hBC, heq, vShift]
  | case15 c h1 h2 h3 h4 c1 hv4 c2 hcont2 c3 rest2 hnc3 =>
    intro C
    have hB : utf8V (c :: c1 :: c2 :: c3 :: rest2) = .invalid 0 3 := by
      rw [utf8V_lead4_cons c c1 c2 c3 rest2 h1 h2 h3 h4, if_pos hv4,
        if_pos hcont2, if_neg hnc3]
    have hBC : utf8V (c :: c1 :: c2 :: c3 :: (rest2 ++ C)) =
        .invalid 0 3 := by
      rw [utf8V_lead4_cons c c1 c2 c3 _ h1 h2 h3 h4, if_pos hv4,
        if_pos hcont2, if_neg hnc3]
    refine ⟨fun h => by simp [hB] at h, fun v h => by simp [hB] at h, ?_⟩
    intro v e h
    rw [hB] at h
    obtain ⟨hv, he⟩ := Utf8V.invalid.inj h.symm
    subst hv
    subst he
    simpa using hBC
  | case16 c h1 h2 h3 h4 c1 hv4 c2 rest2 hnc2 =>
    intro C
    have hB : utf8V (c :: c1 :: c2 :: rest2) = .invalid 0 2 :=
      utf8V_lead4_badthird c c1 c2 rest2 h1 h2 h3 h4 hv4 hnc2
    have hBC : utf8V (c :: c1 :: c2 :: (rest2 ++ C)) = .invalid 0 2 :=
      utf8V_lead4_badthird c c1 c2 _ h1 h2 h3 h4 hv4 hnc2
    refine ⟨fun h => by simp [hB] at h, fun v h => by simp [hB] at h, ?_⟩
    intro v e h
    rw [hB] at h
    obtain ⟨hv, he⟩ := Utf8V.invalid.inj h.symm
    subst hv
    subst he
    simpa using hBC
  | case17 c h1 h2 h3 h4 c1 rest2 hnv =>
    intro C
    have hB : utf8V (c :: c1 :: rest2) = .invalid 0 1 :=
      utf8V_lead4_badsecond c c1 rest2 h1 h2 h3 h4 hnv
    have hBC : utf8V (c :: c1 :: (rest2 ++ C)) = .invalid 0 1 :=
      utf8V_lead4_badsecond c c1 _ h1 h2 h3 h4 hnv
    refine ⟨fun h => by simp [hB] at h, fun v h => by simp [hB] at h, ?_⟩
    intro v e h
    rw [hB] at h
    obtain ⟨hv, he⟩ := Utf8V.invalid.inj h.symm
    subst hv
    subst he
    simpa using hBC
  | case18 c rest2 h1 h2 h3 h4 =>
    intro C
    have hB : utf8V (c :: rest2) = .invalid 0 1 :=
      utf8V_bad c rest2 h1 h2 h3 h4
    have hBC : utf8V (c :: (rest2 ++ C)) = .invalid 0 1 :=
      utf8V_bad c _ h1 h2 h3 h4
    refine ⟨fun h => by simp [hB] at h, fun v h => by simp [hB] at h, ?_⟩
    intro v e h
    rw [hB] at h
    obtain ⟨hv, he⟩ := Utf8V.invalid.inj h.symm
    subst hv
    subst he
    simpa using hBC

theorem utf8V_append_ok {B : List Nat} (h : utf8V B = .ok) (C : List Nat) :
    utf8V (B ++ C) = vShift B.length (utf8V C) :=
  (utf8V_append B C).1 h

theorem utf8V_incomplete_lt {B : List Nat} {v : Nat}
    (h : utf8V B = .incomplete v) : v < B.length :=
  ((utf8V_append B []).2.1 v h).1

theorem utf8V_append_incomplete {B : List Nat} {v : Nat}
    (h : utf8V B = .incomplete v) (C : List Nat) :
    utf8V (B ++ C) = vShift v (utf8V (B.drop v ++ C)) :=
  ((utf8V_append B C).2.1 v h).2

theorem utf8V_append_invalid {B : List Nat} {v e : Nat}
    (h : utf8V B = .invalid v e) (C : List Nat) :
    utf8V (B ++ C) = .invalid v e :=
  (utf8V_append B C).2.2 v e h

/-! ### Utf8StringDecoder invariant and laws -/

/-- The proven-valid boundary of a buffer: everything for `ok`, the
reported position otherwise. -/
def boundary (B : List Nat) : Nat :=
  match utf8V B with
  | .ok => B.length
  | .incomplete v => v
  | .invalid v _ => v

/-- The validator found no definite error. -/
def NotInvalid (r : Utf8V) : Prop := ∀ v e, r ≠ .invalid v e

/-- The `to_copy` amount of a `decode_chunk` call. -/
def utf8Tc (s : Utf8St) (xs : List Nat) : Nat :=
  min xs.length (s.required - s.buf.length)

/-- The canonical state holding buffer `B`: the cursor sits at the valid
boundary. -/
def utf8Canon (B : List Nat) (req : Nat) : Utf8St := ⟨B, boundary B, req⟩

/-- Invariant of Utf8StringDecoder states reachable by successful calls. -/
def Utf8Inv (s : Utf8St) : Prop :=
  s.validUpTo = boundary s.buf ∧ NotInvalid (utf8V s.buf) ∧
    s.buf.length ≤ s.required

/-- Error kinds after erasing the position payload of invalid-UTF-8
errors (the payload genuinely depends on the chunk split). -/
inductive Utf8ErrN where
  | invalidN : Utf8ErrN
  | endN (missing : Nat) : Utf8ErrN
deriving DecidableEq, Repr

/-- Normalization of UTF-8 decoder errors: keep the missing-byte count,
erase invalid-position details. -/
def utf8Nerr : Utf8Err → Utf8ErrN
  | .invalidUtf8 _ _ => .invalidN
  | .unexpectedEnd m => .endN m

theorem boundary_of_ok {B : List Nat} (h : utf8V B = .ok) :
    boundary B = B.length := by
  simp [boundary, h]

theorem boundary_of_incomplete {B : List Nat} {v : Nat}
    (h : utf8V B = .incomplete v) : boundary B = v := by
  simp [boundary, h]

/-- Under the invariant, the fast path is taken exactly when the whole
buffer is proven valid. -/
theorem utf8Inv_fast_iff {s : Utf8St} (h : Utf8Inv s) :
    s.validUpTo = s.buf.length ↔ utf8V s.buf = .ok := by
  obtain ⟨h1, h2, _⟩ := h
  constructor
  · intro hf
    cases hV : utf8V s.buf with
    | ok => rfl
    | incomplete v =>
      have := utf8V_incomplete_lt hV
      rw [boundary_of_incomplete hV] at h1
      omega
    | invalid v e => exact absurd hV (h2 v e)
  · intro hV
    rw [h1, boundary_of_ok hV]

/-- If the slow path is taken, the buffer validates to incomplete at the
cursor. -/
theorem utf8Inv_slow {s : Utf8St} (h : Utf8Inv s)
    (hs : ¬ s.validUpTo = s.buf.length) :
    utf8V s.buf = .incomplete s.validUpTo := by
  obtain ⟨h1, h2, h3⟩ := h
  cases hV : utf8V s.buf with
  | ok => exact absurd ((utf8Inv_fast_iff ⟨h1, h2, h3⟩).2 hV) hs
  | incomplete v =>
    rw [h1, boundary_of_incomplete hV]
  | invalid v e => exact absurd hV (h2 v e)

/-- Success characterization of `decode_chunk`: when the extended buffer
has no definite error, the call consumes `to_copy` bytes and lands in the
canonical state of the extended buffer. -/
theorem utf8Step_success (s : Utf8St) (xs : List Nat) (h : Utf8Inv s)
    (hni : NotInvalid (utf8V (s.buf ++ xs.take (utf8Tc s xs)))) :
    utf8Step s xs =
      (utf8Canon (s.buf ++ xs.take (utf8Tc s xs)) s.required,
        xs.drop (utf8Tc s xs), none) := by
  by_cases htc : utf8Tc s xs = 0
  · obtain ⟨buf, vut, req⟩ := s
    obtain ⟨h1, _, _⟩ := h
    simp only [utf8Tc] at htc
    simp only at h1
    simp only [utf8Step, utf8Canon, utf8Tc, htc, if_pos]
    simp [h1]
  · by_cases hfast : s.validUpTo = s.buf.length
    · have hVok := (utf8Inv_fast_iff h).1 hfast
      have happ := utf8V_append_ok hVok (xs.take (utf8Tc s xs))
      have hClen : (xs.take (utf8Tc s xs)).length = utf8Tc s xs := by
        simp only [List.length_take, utf8Tc]
        omega
      cases hVC : utf8V (xs.take (utf8Tc s xs)) with
      | ok =>
        obtain ⟨buf, vut, req⟩ := s
        simp only [utf8Tc] at htc hVC hClen happ ⊢
        simp only at hfast
        have hok : utf8V (buf ++ xs.take (min xs.length (req - buf.length)))
            = .ok := by
          rw [happ, hVC]
          rfl
        simp only [utf8Step, utf8Canon, htc, hfast, hVC, reduceIte]
        rw [boundary_of_ok hok]
        simp [hClen]
      | incomplete v =>
        obtain ⟨buf, vut, req⟩ := s
        simp only [utf8Tc] at htc hVC hClen happ ⊢
        simp only at hfast
        have hbnd : boundary
            (buf ++ xs.take (min xs.length (req - buf.length)))
            = v + buf.length := by
          apply boundary_of_incomplete
          rw [happ, hVC]
          rfl
        simp only [utf8Step, utf8Canon, htc, hfast, hVC, reduceIte]
        rw [hbnd]
        simp [Nat.add_comm]
      | invalid v e =>
        exact absurd (happ.trans (by rw [hVC]; rfl))
          (hni (v + s.buf.length) e)
    · have hVinc := utf8Inv_slow h hfast
      have hlt := utf8V_incomplete_lt hVinc
      have happ := utf8V_append_incomplete hVinc (xs.take (utf8Tc s xs))
      have hdrop : (s.buf ++ xs.take (utf8Tc s xs)).drop s.validUpTo =
          s.buf.drop s.validUpTo ++ xs.take (utf8Tc s xs) :=
        List.drop_append_of_le_length (by omega)
      cases hVR : utf8V (s.buf.drop s.validUpTo ++ xs.take (utf8Tc s xs)) with
      | ok =>
        obtain ⟨buf, vut, req⟩ := s
        simp only [utf8Tc] at htc hVR happ hdrop ⊢
        simp only at hfast hlt
        have hbnd : boundary
            (buf ++ xs.take (min xs.length (req - buf.length)))
            = (buf ++ xs.take (min xs.length (req - buf.length))).length := by
          apply boundary_of_ok
          rw [happ, hVR]
          rfl
        simp only [utf8Step, utf8Canon, htc, hfast, reduceIte, hdrop, hVR]
        rw [hbnd]
      | incomplete v =>
        obtain ⟨buf, vut, req⟩ := s
        simp only [utf8Tc] at htc hVR happ hdrop ⊢
        simp only at hfast hlt
        have hbnd : boundary
            (buf ++ xs.take (min xs.length (req - buf.length)))
            = v + vut := by
          apply boundary_of_incomplete
          rw [happ, hVR]
          rfl
        simp only [utf8Step, utf8Canon, htc, hfast, reduceIte, hdrop, hVR]
        rw [hbnd]
        simp [Nat.add_comm]
      | invalid v e =>
        refine absurd (happ.trans ?_) (hni (v + s.validUpTo) e)
        rw [hVR]
        rfl

/-- Error characterization of `decode_chunk`: a definite error in the
extended buffer makes the call fail with an invalid-UTF-8 error, leaving
the input view unconsumed. -/
theorem utf8Step_error (s : Utf8St) (xs : List Nat) (h : Utf8Inv s)
    {v e : Nat}
    (hinv : utf8V (s.buf ++ xs.take (utf8Tc s xs)) = .invalid v e) :
    ∃ s' v2 e2, utf8Step s xs = (s', xs, some (.invalidUtf8 v2 (some e2))) := by
  by_cases htc : utf8Tc s xs = 0
  · exfalso
    have hC : xs.take (utf8Tc s xs) = [] := by
      rw [htc]
      exact List.take_zero xs
    rw [hC, List.append_nil] at hinv
    exact h.2.1 v e hinv
  · by_cases hfast : s.validUpTo = s.buf.length
    · have hVok := (utf8Inv_fast_iff h).1 hfast
      have happ := utf8V_append_ok hVok (xs.take (utf8Tc s xs))
      rw [hinv] at happ
      obtain ⟨v0, hv0, _⟩ := vShift_eq_invalid.1 happ.symm
      obtain ⟨buf, vut, req⟩ := s
      simp only [utf8Tc] at htc hv0 ⊢
      simp only at hfast
      refine ⟨⟨buf, vut, req⟩, v0, e, ?_⟩
      simp only [utf8Step, htc, hfast, reduceIte, hv0]
    · have hVinc := utf8Inv_slow h hfast
      have hlt := utf8V_incomplete_lt hVinc
      have happ := utf8V_append_incomplete hVinc (xs.take (utf8Tc s xs))
      have hdrop : (s.buf ++ xs.take (utf8Tc s xs)).drop s.validUpTo =
          s.buf.drop s.validUpTo ++ xs.take (utf8Tc s xs) :=
        List.drop_append_of_le_length (by omega)
      rw [hinv] at happ
      obtain ⟨v0, hv0, _⟩ := vShift_eq_invalid.1 happ.symm
      obtain ⟨buf, vut, req⟩ := s
      simp only [utf8Tc] at htc hv0 hdrop ⊢
      simp only at hfast hlt
      refine ⟨⟨buf ++ xs.take (min xs.length (req - buf.length)), vut, req⟩,
        v0, e, ?_⟩
      simp only [utf8Step, htc, hfast, reduceIte, hdrop, hv0]

theorem utf8Decode_success (s : Utf8St) (xs : List Nat) (h : Utf8Inv s)
    (hni : NotInvalid (utf8V (s.buf ++ xs.take (utf8Tc s xs)))) :
    Utf8StringDecoder.decode s xs =
      .ok (utf8Canon (s.buf ++ xs.take (utf8Tc s xs)) s.required,
        xs.drop (utf8Tc s xs)) := by
  simp only [Utf8StringDecoder, utf8Step_success s xs h hni]

theorem utf8Decode_error (s : Utf8St) (xs : List Nat) (h : Utf8Inv s)
    {v e : Nat}
    (hinv : utf8V (s.buf ++ xs.take (utf8Tc s xs)) = .invalid v e) :
    ∃ v2 e2, Utf8StringDecoder.decode s xs =
      .error (.invalidUtf8 v2 (some e2)) := by
  obtain ⟨s', v2, e2, hstep⟩ := utf8Step_error s xs h hinv
  exact ⟨v2, e2, by simp only [Utf8StringDecoder, hstep]⟩

theorem utf8Decode_ok_inv (s : Utf8St) (xs : List Nat) (s' : Utf8St)
    (rem : List Nat) (h : Utf8Inv s)
    (hd : Utf8StringDecoder.decode s xs = .ok (s', rem)) :
    NotInvalid (utf8V (s.buf ++ xs.take (utf8Tc s xs))) ∧
    s' = utf8Canon (s.buf ++ xs.take (utf8Tc s xs)) s.required ∧
    rem = xs.drop (utf8Tc s xs) := by
  cases hV : utf8V (s.buf ++ xs.take (utf8Tc s xs)) with
  | invalid v e =>
    obtain ⟨v2, e2, herr⟩ := utf8Decode_error s xs h hV
    rw [herr] at hd
    cases hd
  | ok =>
    have hni : NotInvalid (utf8V (s.buf ++ xs.take (utf8Tc s xs))) := by
      rw [hV]
      intro v e
      simp
    rw [utf8Decode_success s xs h hni] at hd
    obtain ⟨h1, h2⟩ := Prod.mk.injEq .. ▸ Except.ok.inj hd
    exact ⟨fun v e => by simp, h1.symm, h2.symm⟩
  | incomplete v =>
    have hni : NotInvalid (utf8V (s.buf ++ xs.take (utf8Tc s xs))) := by
      rw [hV]
      intro v e
      simp
    rw [utf8Decode_success s xs h hni] at hd
    obtain ⟨h1, h2⟩ := Prod.mk.injEq .. ▸ Except.ok.inj hd
    exact ⟨fun v2 e2 => by simp, h1.symm, h2.symm⟩

theorem utf8Decode_error_inv (s : Utf8St) (xs : List Nat) (e0 : Utf8Err)
    (h : Utf8Inv s)
    (hd : Utf8StringDecoder.decode s xs = .error e0) :
    (∃ v e2, utf8V (s.buf ++ xs.take (utf8Tc s xs)) = .invalid v e2) ∧
    (∃ v3 e3, e0 = .invalidUtf8 v3 (some e3)) := by
  cases hV : utf8V (s.buf ++ xs.take (utf8Tc s xs)) with
  | invalid v e =>
    obtain ⟨v2, e2, herr⟩ := utf8Decode_error s xs h hV
    rw [herr] at hd
    exact ⟨⟨v, e, rfl⟩, v2, e2, (Except.error.inj hd).symm⟩
  | ok =>
    rw [utf8Decode_success s xs h (by rw [hV]; intro v e; simp)] at hd
    cases hd
  | incomplete v =>
    rw [utf8Decode_success s xs h (by rw [hV]; intro v e; simp)] at hd
    cases hd

theorem utf8Canon_inv {B : List Nat} {req : Nat}
    (hni : NotInvalid (utf8V B)) (hlen : B.length ≤ req) :
    Utf8Inv (utf8Canon B req) := ⟨rfl, hni, hlen⟩

theorem utf8_saturated (s : Utf8St) (hfull : s.required ≤ s.buf.length) :
    Saturated Utf8StringDecoder s := by
  intro zs
  obtain ⟨buf, vut, req⟩ := s
  simp only at hfull
  have h0 : req - buf.length = 0 := by omega
  simp [Utf8StringDecoder, utf8Step, h0]

theorem utf8_laws : DecLaws Utf8StringDecoder Utf8Inv utf8Nerr := by
  constructor
  · -- nil_ok
    intro s hs
    obtain ⟨buf, vut, req⟩ := s
    simp [Utf8StringDecoder, utf8Step]
  · -- inv_decode
    intro s xs s' rem hs hd
    obtain ⟨hni, hs', _⟩ := utf8Decode_ok_inv s xs s' rem hs hd
    subst hs'
    apply utf8Canon_inv hni
    have := hs.2.2
    simp only [List.length_append, List.length_take, utf8Tc]
    omega
  · -- sat_of_rem
    intro s xs s' rem hs hd hrem
    obtain ⟨hni, hs', hrem2⟩ := utf8Decode_ok_inv s xs s' rem hs hd
    subst hs'
    apply utf8_saturated
    have h1 : ¬ xs.length ≤ utf8Tc s xs := by
      intro hle
      exact hrem (by rw [hrem2]; exact List.drop_eq_nil_iff.2 hle)
    have := hs.2.2
    simp only [utf8Canon, utf8Tc, List.length_append, List.length_take] at *
    omega
  · -- err_mono
    intro s xs ys e hs hd
    obtain ⟨⟨v, e2, hV⟩, v3, e3, he0⟩ := utf8Decode_error_inv s xs e hs hd
    have htcx : utf8Tc s xs ≤ xs.length := Nat.min_le_left _ _
    have htcle : utf8Tc s xs ≤ utf8Tc s (xs ++ ys) := by
      simp only [utf8Tc, List.length_append]
      omega
    have hdecomp : (xs ++ ys).take (utf8Tc s (xs ++ ys)) =
        xs.take (utf8Tc s xs) ++
          ((xs ++ ys).take (utf8Tc s (xs ++ ys))).drop (utf8Tc s xs) := by
      conv_lhs => rw [← List.take_append_drop (utf8Tc s xs)
        ((xs ++ ys).take (utf8Tc s (xs ++ ys)))]
      rw [List.take_take, Nat.min_eq_left htcle,
        List.take_append_of_le_length htcx]
    have hVext : utf8V (s.buf ++ (xs ++ ys).take (utf8Tc s (xs ++ ys))) =
        .invalid v e2 := by
      rw [hdecomp, ← List.append_assoc]
      exact utf8V_append_invalid hV _
    obtain ⟨v2, e2', herr⟩ := utf8Decode_error s (xs ++ ys) hs hVext
    refine ⟨.invalidUtf8 v2 (some e2'), herr, ?_⟩
    rw [he0]
    rfl
  · -- split_ok
    intro s xs ys s' hs hd
    obtain ⟨hni, hs', hrem⟩ := utf8Decode_ok_inv s xs s' [] hs hd
    have htc : utf8Tc s xs = xs.length := by
      have hle := List.drop_eq_nil_iff.1 hrem.symm
      have : utf8Tc s xs ≤ xs.length := Nat.min_le_left _ _
      omega
    have htake : xs.take (utf8Tc s xs) = xs := by
      rw [htc]
      exact List.take_length xs
    rw [htake] at hs' hni
    subst hs'
    have hxslen : xs.length ≤ s.required - s.buf.length := by
      have : utf8Tc s xs ≤ s.required - s.buf.length := Nat.min_le_right _ _
      omega
    have hlen2 : (s.buf ++ xs).length ≤ s.required := by
      have := hs.2.2
      simp only [List.length_append]
      omega
    have hInv2 : Utf8Inv (utf8Canon (s.buf ++ xs) s.required) :=
      utf8Canon_inv hni hlen2
    have htc3 : utf8Tc s (xs ++ ys) = xs.length +
        utf8Tc (utf8Canon (s.buf ++ xs) s.required) ys := by
      simp only [utf8Tc, utf8Canon, List.length_append]
      omega
    have htake3 : (xs ++ ys).take (utf8Tc s (xs ++ ys)) =
        xs ++ ys.take (utf8Tc (utf8Canon (s.buf ++ xs) s.required) ys) := by
      rw [htc3]
      exact List.take_append _
    have hdrop3 : (xs ++ ys).drop (utf8Tc s (xs ++ ys)) =
        ys.drop (utf8Tc (utf8Canon (s.buf ++ xs) s.required) ys) := by
      rw [htc3]
      exact List.drop_append _
    have hB2 : s.buf ++ (xs ++ ys).take (utf8Tc s (xs ++ ys)) =
        (s.buf ++ xs) ++
          ys.take (utf8Tc (utf8Canon (s.buf ++ xs) s.required) ys) := by
      rw [htake3, List.append_assoc]
    cases hV : utf8V ((s.buf ++ xs) ++
        ys.take (utf8Tc (utf8Canon (s.buf ++ xs) s.required) ys)) with
    | invalid v e =>
      left
      obtain ⟨v2, e2, herr1⟩ :=
        utf8Decode_error (utf8Canon (s.buf ++ xs) s.required) ys hInv2 hV
      obtain ⟨v4, e4, herr2⟩ :=
        utf8Decode_error s (xs ++ ys) hs (by rw [hB2]; exact hV)
      exact ⟨.invalidUtf8 v2 (some e2), .invalidUtf8 v4 (some e4),
        herr1, herr2, rfl⟩
    | ok =>
      right
      have hni2 : NotInvalid (utf8V ((s.buf ++ xs) ++
          ys.take (utf8Tc (utf8Canon (s.buf ++ xs) s.required) ys))) := by
        rw [hV]
        intro v e
        simp
      rw [utf8Decode_success (utf8Canon (s.buf ++ xs) s.required) ys hInv2
        hni2]
      rw [utf8Decode_success s (xs ++ ys) hs (by rw [hB2]; exact hni2)]
      refine ⟨_, _, rfl, ?_⟩
      rw [hB2, hdrop3]
      simp [utf8Canon]
    | incomplete v =>
      right
      have hni2 : NotInvalid (utf8V ((s.buf ++ xs) ++
          ys.take (utf8Tc (utf8Canon (s.buf ++ xs) s.required) ys))) := by
        rw [hV]
        intro v e
        simp
      rw [utf8Decode_success (utf8Canon (s.buf ++ xs) s.required) ys hInv2
        hni2]
      rw [utf8Decode_success s (xs ++ ys) hs (by rw [hB2]; exact hni2)]
      refine ⟨_, _, rfl, ?_⟩
      rw [hB2, hdrop3]
      simp [utf8Canon]
  · -- ext_rem
    intro s xs ys s' rem hs hd hrem
    obtain ⟨hni, hs', hrem2⟩ := utf8Decode_ok_inv s xs s' rem hs hd
    have h1 : ¬ xs.length ≤ utf8Tc s xs := by
      intro hle
      exact hrem (by rw [hrem2]; exact List.drop_eq_nil_iff.2 hle)
    have htc : utf8Tc s xs = s.required - s.buf.length := by
      simp only [utf8Tc] at *
      omega
    have htc3 : utf8Tc s (xs ++ ys) = utf8Tc s xs := by
      simp only [utf8Tc, List.length_append] at *
      omega
    have htake : (xs ++ ys).take (utf8Tc s (xs ++ ys)) =
        xs.take (utf8Tc s xs) := by
      rw [htc3]
      exact List.take_append_of_le_length (by omega)
    have hdrop : (xs ++ ys).drop (utf8Tc s (xs ++ ys)) =
        xs.drop (utf8Tc s xs) ++ ys := by
      rw [htc3]
      exact List.drop_append_of_le_length (by omega)
    rw [utf8Decode_success s (xs ++ ys) hs (by rw [htake]; exact hni)]
    rw [htake, hdrop, hs', hrem2]

/-! ### Combinator closure of the chunk-splitting laws -/

/-- Invariant of a Chain state: both stages keep their invariant. -/
def ChainInv (InvA : σA → Prop) (InvB : σB → Prop) :
    ChainSt σA αA σB → Prop
  | .first a b => InvA a ∧ InvB b
  | .second _ b => InvB b

theorem chain_laws {σA εA εA' αA σB εB εB' αB : Type}
    (A : Dec σA εA αA) (B : Dec σB εB αB)
    {InvA : σA → Prop} {InvB : σB → Prop}
    {nerrA : εA → εA'} {nerrB : εB → εB'}
    (LA : DecLaws A InvA nerrA) (LB : DecLaws B InvB nerrB) :
    DecLaws (ChainDecoder A B) (ChainInv InvA InvB)
      (Sum.map nerrA nerrB) := by
  constructor
  · -- nil_ok
    intro s hs
    cases s with
    | first a b =>
      simp [ChainDecoder, LA.nil_ok a hs.1]
    | second va b =>
      simp [ChainDecoder, LB.nil_ok b hs]
  · -- inv_decode
    intro s xs s' rem hs hd
    cases s with
    | first a b =>
      obtain ⟨ha, hb⟩ := hs
      simp only [ChainDecoder] at hd
      cases hA : A.decode a xs with
      | error e => rw [hA] at hd; cases hd
      | ok p =>
        obtain ⟨a1, remA⟩ := p
        rw [hA] at hd
        simp only at hd
        by_cases hRA : remA.isEmpty
        · rw [if_pos hRA] at hd
          obtain ⟨h1, _⟩ := Prod.mk.injEq .. ▸ Except.ok.inj hd
          subst h1
          exact ⟨LA.inv_decode a xs a1 remA ha hA, hb⟩
        · rw [if_neg hRA] at hd
          cases hFA : A.fin a1 with
          | error e => rw [hFA] at hd; cases hd
          | ok va =>
            rw [hFA] at hd
            simp only at hd
            cases hBD : B.decode b remA with
            | error e => rw [hBD] at hd; cases hd
            | ok q =>
              obtain ⟨b1, remB⟩ := q
              rw [hBD] at hd
              simp only at hd
              obtain ⟨h1, _⟩ := Prod.mk.injEq .. ▸ Except.ok.inj hd
              subst h1
              exact LB.inv_decode b remA b1 remB hb hBD
    | second va b =>
      simp only [ChainDecoder] at hd
      cases hBD : B.decode b xs with
      | error e => rw [hBD] at hd; cases hd
      | ok q =>
        obtain ⟨b1, remB⟩ := q
        rw [hBD] at hd
        simp only at hd
        obtain ⟨h1, _⟩ := Prod.mk.injEq .. ▸ Except.ok.inj hd
        subst h1
        exact LB.inv_decode b xs b1 remB hs hBD
  · -- sat_of_rem
    intro s xs s' rem hs hd hrem
    cases s with
    | first a b =>
      obtain ⟨ha, hb⟩ := hs
      simp only [ChainDecoder] at hd
      cases hA : A.decode a xs with
      | error e => rw [hA] at hd; cases hd
      | ok p =>
        obtain ⟨a1, remA⟩ := p
        rw [hA] at hd
        simp only at hd
        by_cases hRA : remA.isEmpty
        · rw [if_pos hRA] at hd
          obtain ⟨h1, h2⟩ := Prod.mk.injEq .. ▸ Except.ok.inj hd
          exact absurd (h2 ▸ List.isEmpty_iff.1 hRA) hrem
        · rw [if_neg hRA] at hd
          cases hFA : A.fin a1 with
          | error e => rw [hFA] at hd; cases hd
          | ok va =>
            rw [hFA] at hd
            simp only at hd
            cases hBD : B.decode b remA with
            | error e => rw [hBD] at hd; cases hd
            | ok q =>
              obtain ⟨b1, remB⟩ := q
              rw [hBD] at hd
              simp only at hd
              obtain ⟨h1, h2⟩ := Prod.mk.injEq .. ▸ Except.ok.inj hd
              subst h1
              subst h2
              have hsatB := LB.sat_of_rem b remA b1 remB hb hBD hrem
              intro zs
              simp only [ChainDecoder, hsatB zs]
    | second va b =>
      simp only [ChainDecoder] at hd
      cases hBD : B.decode b xs with
      | error e => rw [hBD] at hd; cases hd
      | ok q =>
        obtain ⟨b1, remB⟩ := q
        rw [hBD] at hd
        simp only at hd
        obtain ⟨h1, h2⟩ := Prod.mk.injEq .. ▸ Except.ok.inj hd
        subst h1
        subst h2
        have hsatB := LB.sat_of_rem b xs b1 remB hs hBD hrem
        intro zs
        simp only [ChainDecoder, hsatB zs]
  · -- err_mono
    intro s xs ys e hs hd
    cases s with
    | first a b =>
      obtain ⟨ha, hb⟩ := hs
      simp only [ChainDecoder] at hd ⊢
      cases hA : A.decode a xs with
      | error eA =>
        rw [hA] at hd
        simp only at hd
        obtain he := Except.error.inj hd
        obtain ⟨e', hcat, hne⟩ := LA.err_mono a xs ys eA ha hA
        refine ⟨.inl e', ?_, ?_⟩
        · rw [hcat]
        · rw [← he]
          simp [Sum.map, hne]
      | ok p =>
        obtain ⟨a1, remA⟩ := p
        rw [hA] at hd
        simp only at hd
        by_cases hRA : remA.isEmpty
        · rw [if_pos hRA] at hd; cases hd
        · rw [if_neg hRA] at hd
          have hremA : remA ≠ [] := fun hh => hRA (by simp [hh])
          have hcat := LA.ext_rem a xs ys a1 remA ha hA hremA
          have hcatne : ¬ (remA ++ ys).isEmpty := by
            simp [List.isEmpty_iff, hremA]
          cases hFA : A.fin a1 with
          | error eF =>
            rw [hFA] at hd
            simp only at hd
            obtain he := Except.error.inj hd
            refine ⟨.inl eF, ?_, by rw [← he]⟩
            simp only [hcat, if_neg hcatne, hFA]
          | ok va =>
            rw [hFA] at hd
            simp only at hd
            cases hBD : B.decode b remA with
            | error eB =>
              rw [hBD] at hd
              simp only at hd
              obtain he := Except.error.inj hd
              obtain ⟨e', hBcat, hne⟩ := LB.err_mono b remA ys eB hb hBD
              refine ⟨.inr e', ?_, ?_⟩
              · simp only [hcat, if_neg hcatne, hFA, hBcat]
              · rw [← he]
                simp [Sum.map, hne]
            | ok q => rw [hBD] at hd; cases hd
    | second va b =>
      simp only [ChainDecoder] at hd ⊢
      cases hBD : B.decode b xs with
      | error eB =>
        rw [hBD] at hd
        simp only at hd
        obtain he := Except.error.inj hd
        obtain ⟨e', hBcat, hne⟩ := LB.err_mono b xs ys eB hs hBD
        refine ⟨.inr e', ?_, ?_⟩
        · rw [hBcat]
        · rw [← he]
          simp [Sum.map, hne]
      | ok q => rw [hBD] at hd; cases hd
  · -- split_ok
    intro s xs ys s' hs hd
    cases s with
    | first a b =>
      obtain ⟨ha, hb⟩ := hs
      simp only [ChainDecoder] at hd
      cases hA : A.decode a xs with
      | error e => rw [hA] at hd; cases hd
      | ok p =>
        obtain ⟨a1, remA⟩ := p
        rw [hA] at hd
        simp only at hd
        by_cases hRA : remA.isEmpty
        · -- stage A consumed the whole chunk
          rw [if_pos hRA] at hd
          obtain ⟨h1, h2⟩ := Prod.mk.injEq .. ▸ Except.ok.inj hd
          subst h1
          have hremA : remA = [] := List.isEmpty_iff.1 hRA
          subst hremA
          rcases LA.split_ok a xs ys a1 ha hA with
            ⟨e, e', hys, hcat, hne⟩ | ⟨a2, rem2, hys, hcat⟩
          · left
            refine ⟨.inl e, .inl e', ?_, ?_, by simp [Sum.map, hne]⟩
            · simp only [ChainDecoder, hys]
            · simp only [ChainDecoder, hcat]
          · by_cases hR2 : rem2.isEmpty
            · right
              refine ⟨.first a2 b, rem2, ?_, ?_⟩
              · simp only [ChainDecoder, hys, if_pos hR2]
              · simp only [ChainDecoder, hcat, if_pos hR2]
            · cases hFA : A.fin a2 with
              | error e =>
                left
                refine ⟨.inl e, .inl e, ?_, ?_, rfl⟩
                · simp only [ChainDecoder, hys, if_neg hR2, hFA]
                · simp only [ChainDecoder, hcat, if_neg hR2, hFA]
              | ok va =>
                cases hBD : B.decode b rem2 with
                | error e =>
                  left
                  refine ⟨.inr e, .inr e, ?_, ?_, rfl⟩
                  · simp only [ChainDecoder, hys, if_neg hR2, hFA, hBD]
                  · simp only [ChainDecoder, hcat, if_neg hR2, hFA, hBD]
                | ok q =>
                  obtain ⟨b1, remB⟩ := q
                  right
                  refine ⟨.second va b1, remB, ?_, ?_⟩
                  · simp only [ChainDecoder, hys, if_neg hR2, hFA, hBD]
                  · simp only [ChainDecoder, hcat, if_neg hR2, hFA, hBD]
        · -- stage A finished inside the chunk
          rw [if_neg hRA] at hd
          have hremA : remA ≠ [] := fun hh => hRA (by simp [hh])
          have hcat := LA.ext_rem a xs ys a1 remA ha hA hremA
          have hcatne : ¬ (remA ++ ys).isEmpty := by
            simp [List.isEmpty_iff, hremA]
          cases hFA : A.fin a1 with
          | error e => rw [hFA] at hd; cases hd
          | ok va =>
            rw [hFA] at hd
            simp only at hd
            cases hBD : B.decode b remA with
            | error e => rw [hBD] at hd; cases hd
            | ok q =>
              obtain ⟨b1, remB⟩ := q
              rw [hBD] at hd
              simp only at hd
              obtain ⟨h1, h2⟩ := Prod.mk.injEq .. ▸ Except.ok.inj hd
              subst h1
              have hremB : remB = [] := h2
              subst hremB
              rcases LB.split_ok b remA ys b1 hb hBD with
                ⟨e, e', hys, hBcat, hne⟩ | ⟨b2, remB2, hys, hBcat⟩
              · left
                refine ⟨.inr e, .inr e', ?_, ?_, by simp [Sum.map, hne]⟩
                · simp only [ChainDecoder, hys]
                · simp only [ChainDecoder, hcat, if_neg hcatne, hFA, hBcat]
              · right
                refine ⟨.second va b2, remB2, ?_, ?_⟩
                · simp only [ChainDecoder, hys]
                · simp only [ChainDecoder, hcat, if_neg hcatne, hFA, hBcat]
    | second va b =>
      simp only [ChainDecoder] at hd
      cases hBD : B.decode b xs with
      | error e => rw [hBD] at hd; cases hd
      | ok q =>
        obtain ⟨b1, remB⟩ := q
        rw [hBD] at hd
        simp only at hd
        obtain ⟨h1, h2⟩ := Prod.mk.injEq .. ▸ Except.ok.inj hd
        subst h1
        have hremB : remB = [] := h2
        subst hremB
        rcases LB.split_ok b xs ys b1 hs hBD with
          ⟨e, e', hys, hBcat, hne⟩ | ⟨b2, remB2, hys, hBcat⟩
        · left
          refine ⟨.inr e, .inr e', ?_, ?_, by simp [Sum.map, hne]⟩
          · simp only [ChainDecoder, hys]
          · simp only [ChainDecoder, hBcat]
        · right
          refine ⟨.second va b2, remB2, ?_, ?_⟩
          · simp only [ChainDecoder, hys]
          · simp only [ChainDecoder, hBcat]
  · -- ext_rem
    intro s xs ys s' rem hs hd hrem
    cases s with
    | first a b =>
      obtain ⟨ha, hb⟩ := hs
      simp only [ChainDecoder] at hd ⊢
      cases hA : A.decode a xs with
      | error e => rw [hA] at hd; cases hd
      | ok p =>
        obtain ⟨a1, remA⟩ := p
        rw [hA] at hd
        simp only at hd
        by_cases hRA : remA.isEmpty
        · rw [if_pos hRA] at hd
          obtain ⟨h1, h2⟩ := Prod.mk.injEq .. ▸ Except.ok.inj hd
          exact absurd (h2 ▸ List.isEmpty_iff.1 hRA) hrem
        · rw [if_neg hRA] at hd
          have hremA : remA ≠ [] := fun hh => hRA (by simp [hh])
          have hcat := LA.ext_rem a xs ys a1 remA ha hA hremA
          have hcatne : ¬ (remA ++ ys).isEmpty := by
            simp [List.isEmpty_iff, hremA]
          cases hFA : A.fin a1 with
          | error e => rw [hFA] at hd; cases hd
          | ok va =>
            rw [hFA] at hd
            simp only at hd
            cases hBD : B.decode b remA with
            | error e => rw [hBD] at hd; cases hd
            | ok q =>
              obtain ⟨b1, remB⟩ := q
              rw [hBD] at hd
              simp only at hd
              obtain ⟨h1, h2⟩ := Prod.mk.injEq .. ▸ Except.ok.inj hd
              subst h1
              subst h2
              have hBext := LB.ext_rem b remA ys b1 remB hb hBD hrem
              simp only [hcat, if_neg hcatne, hFA, hBext]
    | second va b =>
      simp only [ChainDecoder] at hd ⊢
      cases hBD : B.decode b xs with
      | error e => rw [hBD] at hd; cases hd
      | ok q =>
        obtain ⟨b1, remB⟩ := q
        rw [hBD] at hd
        simp only at hd
        obtain ⟨h1, h2⟩ := Prod.mk.injEq .. ▸ Except.ok.inj hd
        subst h1
        subst h2
        have hBext := LB.ext_rem b xs ys b1 remB hs hBD hrem
        rw [hBext]

/-- Invariant of a Then/ThenTry state. -/
def ThenInv (InvA : σA → Prop) (InvB : σB → Prop) : ThenSt σA σB → Prop
  | .first a => InvA a
  | .second b => InvB b

theorem then_laws {σA εA εA' αA σB εB εB' αB : Type}
    (A : Dec σA εA αA) (B : Dec σB εB αB) (f : αA → σB)
    {InvA : σA → Prop} {InvB : σB → Prop}
    {nerrA : εA → εA'} {nerrB : εB → εB'}
    (LA : DecLaws A InvA nerrA) (LB : DecLaws B InvB nerrB)
    (hf : ∀ v, InvB (f v)) :
    DecLaws (ThenDecoder A B f) (ThenInv InvA InvB)
      (Sum.map nerrA nerrB) := by
  constructor
  · -- nil_ok
    intro s hs
    cases s with
    | first a => simp [ThenDecoder, LA.nil_ok a hs]
    | second b => simp [ThenDecoder, LB.nil_ok b hs]
  · -- inv_decode
    intro s xs s' rem hs hd
    cases s with
    | first a =>
      simp only [ThenDecoder] at hd
      cases hA : A.decode a xs with
      | error e => rw [hA] at hd; cases hd
      | ok p =>
        obtain ⟨a1, remA⟩ := p
        rw [hA] at hd
        simp only at hd
        by_cases hRA : remA.isEmpty
        · rw [if_pos hRA] at hd
          obtain ⟨h1, _⟩ := Prod.mk.injEq .. ▸ Except.ok.inj hd
          subst h1
          exact LA.inv_decode a xs a1 remA hs hA
        · rw [if_neg hRA] at hd
          cases hFA : A.fin a1 with
          | error e => rw [hFA] at hd; cases hd
          | ok va =>
            rw [hFA] at hd
            simp only at hd
            cases hBD : B.decode (f va) remA with
            | error e => rw [hBD] at hd; cases hd
            | ok q =>
              obtain ⟨b1, remB⟩ := q
              rw [hBD] at hd
              simp only at hd
              obtain ⟨h1, _⟩ := Prod.mk.injEq .. ▸ Except.ok.inj hd
              subst h1
              exact LB.inv_decode (f va) remA b1 remB (hf va) hBD
    | second b =>
      simp only [ThenDecoder] at hd
      cases hBD : B.decode b xs with
      | error e => rw [hBD] at hd; cases hd
      | ok q =>
        obtain ⟨b1, remB⟩ := q
        rw [hBD] at hd
        simp only at hd
        obtain ⟨h1, _⟩ := Prod.mk.injEq .. ▸ Except.ok.inj hd
        subst h1
        exact LB.inv_decode b xs b1 remB hs hBD
  · -- sat_of_rem
    intro s xs s' rem hs hd hrem
    cases s with
    | first a =>
      simp only [ThenDecoder] at hd
      cases hA : A.decode a xs with
      | error e => rw [hA] at hd; cases hd
      | ok p =>
        obtain ⟨a1, remA⟩ := p
        rw [hA] at hd
        simp only at hd
        by_cases hRA : remA.isEmpty
        · rw [if_pos hRA] at hd
          obtain ⟨h1, h2⟩ := Prod.mk.injEq .. ▸ Except.ok.inj hd
          exact absurd (h2 ▸ List.isEmpty_iff.1 hRA) hrem
        · rw [if_neg hRA] at hd
          cases hFA : A.fin a1 with
          | error e => rw [hFA] at hd; cases hd
          | ok va =>
            rw [hFA] at hd
            simp only at hd
            cases hBD : B.decode (f va) remA with
            | error e => rw [hBD] at hd; cases hd
            | ok q =>
              obtain ⟨b1, remB⟩ := q
              rw [hBD] at hd
              simp only at hd
              obtain ⟨h1, h2⟩ := Prod.mk.injEq .. ▸ Except.ok.inj hd
              subst h1
              subst h2
              have hsatB := LB.sat_of_rem (f va) remA b1 remB (hf va) hBD hrem
              intro zs
              simp only [ThenDecoder, hsatB zs]
    | second b =>
      simp only [ThenDecoder] at hd
      cases hBD : B.decode b xs with
      | error e => rw [hBD] at hd; cases hd
      | ok q =>
        obtain ⟨b1, remB⟩ := q
        rw [hBD] at hd
        simp only at hd
        obtain ⟨h1, h2⟩ := Prod.mk.injEq .. ▸ Except.ok.inj hd
        subst h1
        subst h2
        have hsatB := LB.sat_of_rem b xs b1 remB hs hBD hrem
        intro zs
        simp only [ThenDecoder, hsatB zs]
  · -- err_mono
    intro s xs ys e hs hd
    cases s with
    | first a =>
      simp only [ThenDecoder] at hd ⊢
      cases hA : A.decode a xs with
      | error eA =>
        rw [hA] at hd
        simp only at hd
        obtain he := Except.error.inj hd
        obtain ⟨e', hcat, hne⟩ := LA.err_mono a xs ys eA hs hA
        refine ⟨.inl e', ?_, ?_⟩
        · rw [hcat]
        · rw [← he]
          simp [Sum.map, hne]
      | ok p =>
        obtain ⟨a1, remA⟩ := p
        rw [hA] at hd
        simp only at hd
        by_cases hRA : remA.isEmpty
        · rw [if_pos hRA] at hd; cases hd
        · rw [if_neg hRA] at hd
          have hremA : remA ≠ [] := fun hh => hRA (by simp [hh])
          have hcat := LA.ext_rem a xs ys a1 remA hs hA hremA
          have hcatne : ¬ (remA ++ ys).isEmpty = true := by
            simp [List.isEmpty_iff, hremA]
          cases hFA : A.fin a1 with
          | error eF =>
            rw [hFA] at hd
            simp only at hd
            obtain he := Except.error.inj hd
            refine ⟨.inl eF, ?_, by rw [← he]⟩
            simp only [hcat, if_neg hcatne, hFA]
          | ok va =>
            rw [hFA] at hd
            simp only at hd
            cases hBD : B.decode (f va) remA with
            | error eB =>
              rw [hBD] at hd
              simp only at hd
              obtain he := Except.error.inj hd
              obtain ⟨e', hBcat, hne⟩ :=
                LB.err_mono (f va) remA ys eB (hf va) hBD
              refine ⟨.inr e', ?_, ?_⟩
              · simp only [hcat, if_neg hcatne, hFA, hBcat]
              · rw [← he]
                simp [Sum.map, hne]
            | ok q => rw [hBD] at hd; simp only at hd; cases hd
    | second b =>
      simp only [ThenDecoder] at hd ⊢
      cases hBD : B.decode b xs with
      | error eB =>
        rw [hBD] at hd
        simp only at hd
        obtain he := Except.error.inj hd
        obtain ⟨e', hBcat, hne⟩ := LB.err_mono b xs ys eB hs hBD
        refine ⟨.inr e', ?_, ?_⟩
        · rw [hBcat]
        · rw [← he]
          simp [Sum.map, hne]
      | ok q => rw [hBD] at hd; simp only at hd; cases hd
  · -- split_ok
    intro s xs ys s' hs hd
    cases s with
    | first a =>
      simp only [ThenDecoder] at hd
      cases hA : A.decode a xs with
      | error e => rw [hA] at hd; cases hd
      | ok p =>
        obtain ⟨a1, remA⟩ := p
        rw [hA] at hd
        simp only at hd
        by_cases hRA : remA.isEmpty
        · rw [if_pos hRA] at hd
          obtain ⟨h1, h2⟩ := Prod.mk.injEq .. ▸ Except.ok.inj hd
          subst h1
          have hremA : remA = [] := List.isEmpty_iff.1 hRA
          subst hremA
          rcases LA.split_ok a xs ys a1 hs hA with
            ⟨e, e', hys, hcat, hne⟩ | ⟨a2, rem2, hys, hcat⟩
          · left
            refine ⟨.inl e, .inl e', ?_, ?_, by simp [Sum.map, hne]⟩
            · simp only [ThenDecoder, hys]
            · simp only [ThenDecoder, hcat]
          · by_cases hR2 : rem2.isEmpty
            · right
              refine ⟨.first a2, rem2, ?_, ?_⟩
              · simp only [ThenDecoder, hys, if_pos hR2]
              · simp only [ThenDecoder, hcat, if_pos hR2]
            · cases hFA : A.fin a2 with
              | error e =>
                left
                refine ⟨.inl e, .inl e, ?_, ?_, rfl⟩
                · simp only [ThenDecoder, hys, if_neg hR2, hFA]
                · simp only [ThenDecoder, hcat, if_neg hR2, hFA]
              | ok va =>
                cases hBD : B.decode (f va) rem2 with
                | error e =>
                  left
                  refine ⟨.inr e, .inr e, ?_, ?_, rfl⟩
                  · simp only [ThenDecoder, hys, if_neg hR2, hFA, hBD]
                  · simp only [ThenDecoder, hcat, if_neg hR2, hFA, hBD]
                | ok q =>
                  obtain ⟨b1, remB⟩ := q
                  right
                  refine ⟨.second b1, remB, ?_, ?_⟩
                  · simp only [ThenDecoder, hys, if_neg hR2, hFA, hBD]
                  · simp only [ThenDecoder, hcat, if_neg hR2, hFA, hBD]
        · rw [if_neg hRA] at hd
          have hremA : remA ≠ [] := fun hh => hRA (by simp [hh])
          have hcat := LA.ext_rem a xs ys a1 remA hs hA hremA
          have hcatne : ¬ (remA ++ ys).isEmpty = true := by
            simp [List.isEmpty_iff, hremA]
          cases hFA : A.fin a1 with
          | error e => rw [hFA] at hd; cases hd
          | ok va =>
            rw [hFA] at hd
            simp only at hd
            cases hBD : B.decode (f va) remA with
            | error e => rw [hBD] at hd; cases hd
            | ok q =>
              obtain ⟨b1, remB⟩ := q
              rw [hBD] at hd
              simp only at hd
              obtain ⟨h1, h2⟩ := Prod.mk.injEq .. ▸ Except.ok.inj hd
              subst h1
              have hremB : remB = [] := h2
              subst hremB
              rcases LB.split_ok (f va) remA ys b1 (hf va) hBD with
                ⟨e, e', hys, hBcat, hne⟩ | ⟨b2, remB2, hys, hBcat⟩
              · left
                refine ⟨.inr e, .inr e', ?_, ?_, by simp [Sum.map, hne]⟩
                · simp only [ThenDecoder, hys]
                · simp only [ThenDecoder, hcat, if_neg hcatne, hFA, hBcat]
              · right
                refine ⟨.second b2, remB2, ?_, ?_⟩
                · simp only [ThenDecoder, hys]
                · simp only [ThenDecoder, hcat, if_neg hcatne, hFA, hBcat]
    | second b =>
      simp only [ThenDecoder] at hd
      cases hBD : B.decode b xs with
      | error e => rw [hBD] at hd; cases hd
      | ok q =>
        obtain ⟨b1, remB⟩ := q
        rw [hBD] at hd
        simp only at hd
        obtain ⟨h1, h2⟩ := Prod.mk.injEq .. ▸ Except.ok.inj hd
        subst h1
        have hremB : remB = [] := h2
        subst hremB
        rcases LB.split_ok b xs ys b1 hs hBD with
          ⟨e, e', hys, hBcat, hne⟩ | ⟨b2, remB2, hys, hBcat⟩
        · left
          refine ⟨.inr e, .inr e', ?_, ?_, by simp [Sum.map, hne]⟩
          · simp only [ThenDecoder, hys]
          · simp only [ThenDecoder, hBcat]
        · right
          refine ⟨.second b2, remB2, ?_, ?_⟩
          · simp only [ThenDecoder, hys]
          · simp only [ThenDecoder, hBcat]
  · -- ext_rem
    intro s xs ys s' rem hs hd hrem
    cases s with
    | first a =>
      simp only [ThenDecoder] at hd ⊢
      cases hA : A.decode a xs with
      | error e => rw [hA] at hd; cases hd
      | ok p =>
        obtain ⟨a1, remA⟩ := p
        rw [hA] at hd
        simp only at hd
        by_cases hRA : remA.isEmpty
        · rw [if_pos hRA] at hd
          obtain ⟨h1, h2⟩ := Prod.mk.injEq .. ▸ Except.ok.inj hd
          exact absurd (h2 ▸ List.isEmpty_iff.1 hRA) hrem
        · rw [if_neg hRA] at hd
          have hremA : remA ≠ [] := fun hh => hRA (by simp [hh])
          have hcat := LA.ext_rem a xs ys a1 remA hs hA hremA
          have hcatne : ¬ (remA ++ ys).isEmpty = true := by
            simp [List.isEmpty_iff, hremA]
          cases hFA : A.fin a1 with
          | error e => rw [hFA] at hd; cases hd
          | ok va =>
            rw [hFA] at hd
            simp only at hd
            cases hBD : B.decode (f va) remA with
            | error e => rw [hBD] at hd; cases hd
            | ok q =>
              obtain ⟨b1, remB⟩ := q
              rw [hBD] at hd
              simp only at hd
              obtain ⟨h1, h2⟩ := Prod.mk.injEq .. ▸ Except.ok.inj hd
              subst h1
              subst h2
              have hBext := LB.ext_rem (f va) remA ys b1 remB (hf va) hBD hrem
              simp only [hcat, if_neg hcatne, hFA, hBext]
    | second b =>
      simp only [ThenDecoder] at hd ⊢
      cases hBD : B.decode b xs with
      | error e => rw [hBD] at hd; cases hd
      | ok q =>
        obtain ⟨b1, remB⟩ := q
        rw [hBD] at hd
        simp only at hd
        obtain ⟨h1, h2⟩ := Prod.mk.injEq .. ▸ Except.ok.inj hd
        subst h1
        subst h2
        have hBext := LB.ext_rem b xs ys b1 remB hs hBD hrem
        rw [hBext]

theorem thenTry_laws {σA εA εA' αA σB εB εB' αB ε ε2 : Type}
    (A : Dec σA εA αA) (B : Dec σB εB αB)
    (injA : εA → ε) (injB : εB → ε) (f : αA → Except ε σB)
    {InvA : σA → Prop} {InvB : σB → Prop}
    {nerrA : εA → εA'} {nerrB : εB → εB'} (nerr : ε → ε2)
    (LA : DecLaws A InvA nerrA) (LB : DecLaws B InvB nerrB)
    (hf : ∀ v b0, f v = .ok b0 → InvB b0)
    (hcongA : ∀ e1 e2, nerrA e1 = nerrA e2 → nerr (injA e1) = nerr (injA e2))
    (hcongB : ∀ e1 e2, nerrB e1 = nerrB e2 → nerr (injB e1) = nerr (injB e2)) :
    DecLaws (ThenTryDecoder A B injA injB f) (ThenInv InvA InvB) nerr := by
  constructor
  · -- nil_ok
    intro s hs
    cases s with
    | first a => simp [ThenTryDecoder, LA.nil_ok a hs]
    | second b => simp [ThenTryDecoder, LB.nil_ok b hs]
  · -- inv_decode
    intro s xs s' rem hs hd
    cases s with
    | first a =>
      simp only [ThenTryDecoder] at hd
      cases hA : A.decode a xs with
      | error e => rw [hA] at hd; cases hd
      | ok p =>
        obtain ⟨a1, remA⟩ := p
        rw [hA] at hd
        simp only at hd
        by_cases hRA : remA.isEmpty
        · rw [if_pos hRA] at hd
          obtain ⟨h1, _⟩ := Prod.mk.injEq .. ▸ Except.ok.inj hd
          subst h1
          exact LA.inv_decode a xs a1 remA hs hA
        · rw [if_neg hRA] at hd
          cases hFA : A.fin a1 with
          | error e => rw [hFA] at hd; cases hd
          | ok va =>
            rw [hFA] at hd
            simp only at hd
            cases hfv : f va with
            | error e => rw [hfv] at hd; cases hd
            | ok b0 =>
              rw [hfv] at hd
              simp only at hd
              cases hBD : B.decode b0 remA with
              | error e => rw [hBD] at hd; cases hd
              | ok q =>
                obtain ⟨b1, remB⟩ := q
                rw [hBD] at hd
                simp only at hd
                obtain ⟨h1, _⟩ := Prod.mk.injEq .. ▸ Except.ok.inj hd
                subst h1
                exact LB.inv_decode b0 remA b1 remB (hf va b0 hfv) hBD
    | second b =>
      simp only [ThenTryDecoder] at hd
      cases hBD : B.decode b xs with
      | error e => rw [hBD] at hd; cases hd
      | ok q =>
        obtain ⟨b1, remB⟩ := q
        rw [hBD] at hd
        simp only at hd
        obtain ⟨h1, _⟩ := Prod.mk.injEq .. ▸ Except.ok.inj hd
        subst h1
        exact LB.inv_decode b xs b1 remB hs hBD
  · -- sat_of_rem
    intro s xs s' rem hs hd hrem
    cases s with
    | first a =>
      simp only [ThenTryDecoder] at hd
      cases hA : A.decode a xs with
      | error e => rw [hA] at hd; cases hd
      | ok p =>
        obtain ⟨a1, remA⟩ := p
        rw [hA] at hd
        simp only at hd
        by_cases hRA : remA.isEmpty
        · rw [if_pos hRA] at hd
          obtain ⟨h1, h2⟩ := Prod.mk.injEq .. ▸ Except.ok.inj hd
          exact absurd (h2 ▸ List.isEmpty_iff.1 hRA) hrem
        · rw [if_neg hRA] at hd
          cases hFA : A.fin a1 with
          | error e => rw [hFA] at hd; cases hd
          | ok va =>
            rw [hFA] at hd
            simp only at hd
            cases hfv : f va with
            | error e => rw [hfv] at hd; cases hd
            | ok b0 =>
              rw [hfv] at hd
              simp only at hd
              cases hBD : B.decode b0 remA with
              | error e => rw [hBD] at hd; cases hd
              | ok q =>
                obtain ⟨b1, remB⟩ := q
                rw [hBD] at hd
                simp only at hd
                obtain ⟨h1, h2⟩ := Prod.mk.injEq .. ▸ Except.ok.inj hd
                subst h1
                subst h2
                have hsatB :=
                  LB.sat_of_rem b0 remA b1 remB (hf va b0 hfv) hBD hrem
                intro zs
                simp only [ThenTryDecoder, hsatB zs]
    | second b =>
      simp only [ThenTryDecoder] at hd
      cases hBD : B.decode b xs with
      | error e => rw [hBD] at hd; cases hd
      | ok q =>
        obtain ⟨b1, remB⟩ := q
        rw [hBD] at hd
        simp only at hd
        obtain ⟨h1, h2⟩ := Prod.mk.injEq .. ▸ Except.ok.inj hd
        subst h1
        subst h2
        have hsatB := LB.sat_of_rem b xs b1 remB hs hBD hrem
        intro zs
        simp only [ThenTryDecoder, hsatB zs]
  · -- err_mono
    intro s xs ys e hs hd
    cases s with
    | first a =>
      simp only [ThenTryDecoder] at hd ⊢
      cases hA : A.decode a xs with
      | error eA =>
        rw [hA] at hd
        simp only at hd
        obtain he := Except.error.inj hd
        obtain ⟨e', hcat, hne⟩ := LA.err_mono a xs ys eA hs hA
        refine ⟨injA e', ?_, ?_⟩
        · rw [hcat]
        · rw [← he]
          exact hcongA e' eA hne
      | ok p =>
        obtain ⟨a1, remA⟩ := p
        rw [hA] at hd
        simp only at hd
        by_cases hRA : remA.isEmpty
        · rw [if_pos hRA] at hd; cases hd
        · rw [if_neg hRA] at hd
          have hremA : remA ≠ [] := fun hh => hRA (by simp [hh])
          have hcat := LA.ext_rem a xs ys a1 remA hs hA hremA
          have hcatne : ¬ (remA ++ ys).isEmpty = true := by
            simp [List.isEmpty_iff, hremA]
          cases hFA : A.fin a1 with
          | error eF =>
            rw [hFA] at hd
            simp only at hd
            obtain he := Except.error.inj hd
            refine ⟨injA eF, ?_, by rw [← he]⟩
            simp only [hcat, if_neg hcatne, hFA]
          | ok va =>
            rw [hFA] at hd
            simp only at hd
            cases hfv : f va with
            | error eF =>
              rw [hfv] at hd
              simp only at hd
              obtain he := Except.error.inj hd
              refine ⟨eF, ?_, by rw [← he]⟩
              simp only [hcat, if_neg hcatne, hFA, hfv]
            | ok b0 =>
              rw [hfv] at hd
              simp only at hd
              cases hBD : B.decode b0 remA with
              | error eB =>
                rw [hBD] at hd
                simp only at hd
                obtain he := Except.error.inj hd
                obtain ⟨e', hBcat, hne⟩ :=
                  LB.err_mono b0 remA ys eB (hf va b0 hfv) hBD
                refine ⟨injB e', ?_, ?_⟩
                · simp only [hcat, if_neg hcatne, hFA, hfv, hBcat]
                · rw [← he]
                  exact hcongB e' eB hne
              | ok q => rw [hBD] at hd; simp only at hd; cases hd
    | second b =>
      simp only [ThenTryDecoder] at hd ⊢
      cases hBD : B.decode b xs with
      | error eB =>
        rw [hBD] at hd
        simp only at hd
        obtain he := Except.error.inj hd
        obtain ⟨e', hBcat, hne⟩ := LB.err_mono b xs ys eB hs hBD
        refine ⟨injB e', ?_, ?_⟩
        · rw [hBcat]
        · rw [← he]
          exact hcongB e' eB hne
      | ok q => rw [hBD] at hd; simp only at hd; cases hd
  · -- split_ok
    intro s xs ys s' hs hd
    cases s with
    | first a =>
      simp only [ThenTryDecoder] at hd
      cases hA : A.decode a xs with
      | error e => rw [hA] at hd; cases hd
      | ok p =>
        obtain ⟨a1, remA⟩ := p
        rw [hA] at hd
        simp only at hd
        by_cases hRA : remA.isEmpty
        · rw [if_pos hRA] at hd
          obtain ⟨h1, h2⟩ := Prod.mk.injEq .. ▸ Except.ok.inj hd
          subst h1
          have hremA : remA = [] := List.isEmpty_iff.1 hRA
          subst hremA
          rcases LA.split_ok a xs ys a1 hs hA with
            ⟨e, e', hys, hcat, hne⟩ | ⟨a2, rem2, hys, hcat⟩
          · left
            refine ⟨injA e, injA e', ?_, ?_, hcongA e' e hne⟩
            · simp only [ThenTryDecoder, hys]
            · simp only [ThenTryDecoder, hcat]
          · by_cases hR2 : rem2.isEmpty
            · right
              refine ⟨.first a2, rem2, ?_, ?_⟩
              · simp only [ThenTryDecoder, hys, if_pos hR2]
              · simp only [ThenTryDecoder, hcat, if_pos hR2]
            · cases hFA : A.fin a2 with
              | error e =>
                left
                refine ⟨injA e, injA e, ?_, ?_, rfl⟩
                · simp only [ThenTryDecoder, hys, if_neg hR2, hFA]
                · simp only [ThenTryDecoder, hcat, if_neg hR2, hFA]
              | ok va =>
                cases hfv : f va with
                | error e =>
                  left
                  refine ⟨e, e, ?_, ?_, rfl⟩
                  · simp only [ThenTryDecoder, hys, if_neg hR2, hFA, hfv]
                  · simp only [ThenTryDecoder, hcat, if_neg hR2, hFA, hfv]
                | ok b0 =>
                  cases hBD : B.decode b0 rem2 with
                  | error e =>
                    left
                    refine ⟨injB e, injB e, ?_, ?_, rfl⟩
                    · simp only [ThenTryDecoder, hys, if_neg hR2, hFA, hfv,
                        hBD]
                    · simp only [ThenTryDecoder, hcat, if_neg hR2, hFA, hfv,
                        hBD]
                  | ok q =>
                    obtain ⟨b1, remB⟩ := q
                    right
                    refine ⟨.second b1, remB, ?_, ?_⟩
                    · simp only [ThenTryDecoder, hys, if_neg hR2, hFA, hfv,
                        hBD]
                    · simp only [ThenTryDecoder, hcat, if_neg hR2, hFA, hfv,
                        hBD]
        · rw [if_neg hRA] at hd
          have hremA : remA ≠ [] := fun hh => hRA (by simp [hh])
          have hcat := LA.ext_rem a xs ys a1 remA hs hA hremA
          have hcatne : ¬ (remA ++ ys).isEmpty = true := by
            simp [List.isEmpty_iff, hremA]
          cases hFA : A.fin a1 with
          | error e => rw [hFA] at hd; cases hd
          | ok va =>
            rw [hFA] at hd
            simp only at hd
            cases hfv : f va with
            | error e => rw [hfv] at hd; cases hd
            | ok b0 =>
              rw [hfv] at hd
              simp only at hd
              cases hBD : B.decode b0 remA with
              | error e => rw [hBD] at hd; cases hd
              | ok q =>
                obtain ⟨b1, remB⟩ := q
                rw [hBD] at hd
                simp only at hd
                obtain ⟨h1, h2⟩ := Prod.mk.injEq .. ▸ Except.ok.inj hd
                subst h1
                have hremB : remB = [] := h2
                subst hremB
                rcases LB.split_ok b0 remA ys b1 (hf va b0 hfv) hBD with
                  ⟨e, e', hys, hBcat, hne⟩ | ⟨b2, remB2, hys, hBcat⟩
                · left
                  refine ⟨injB e, injB e', ?_, ?_, hcongB e' e hne⟩
                  · simp only [ThenTryDecoder, hys]
                  · simp only [ThenTryDecoder, hcat, if_neg hcatne, hFA,
                      hfv, hBcat]
                · right
                  refine ⟨.second b2, remB2, ?_, ?_⟩
                  · simp only [ThenTryDecoder, hys]
                  · simp only [ThenTryDecoder, hcat, if_neg hcatne, hFA,
                      hfv, hBcat]
    | second b =>
      simp only [ThenTryDecoder] at hd
      cases hBD : B.decode b xs with
      | error e => rw [hBD] at hd; cases hd
      | ok q =>
        obtain ⟨b1, remB⟩ := q
        rw [hBD] at hd
        simp only at hd
        obtain ⟨h1, h2⟩ := Prod.mk.injEq .. ▸ Except.ok.inj hd
        subst h1
        have hremB : remB = [] := h2
        subst hremB
        rcases LB.split_ok b xs ys b1 hs hBD with
          ⟨e, e', hys, hBcat, hne⟩ | ⟨b2, remB2, hys, hBcat⟩
        · left
          refine ⟨injB e, injB e', ?_, ?_, hcongB e' e hne⟩
          · simp only [ThenTryDecoder, hys]
          · simp only [ThenTryDecoder, hBcat]
        · right
          refine ⟨.second b2, remB2, ?_, ?_⟩
          · simp only [ThenTryDecoder, hys]
          · simp only [ThenTryDecoder, hBcat]
  · -- ext_rem
    intro s xs ys s' rem hs hd hrem
    cases s with
    | first a =>
      simp only [ThenTryDecoder] at hd ⊢
      cases hA : A.decode a xs with
      | error e => rw [hA] at hd; cases hd
      | ok p =>
        obtain ⟨a1, remA⟩ := p
        rw [hA] at hd
        simp only at hd
        by_cases hRA : remA.isEmpty
        · rw [if_pos hRA] at hd
          obtain ⟨h1, h2⟩ := Prod.mk.injEq .. ▸ Except.ok.inj hd
          exact absurd (h2 ▸ List.isEmpty_iff.1 hRA) hrem
        · rw [if_neg hRA] at hd
          have hremA : remA ≠ [] := fun hh => hRA (by simp [hh])
          have hcat := LA.ext_rem a xs ys a1 remA hs hA hremA
          have hcatne : ¬ (remA ++ ys).isEmpty = true := by
            simp [List.isEmpty_iff, hremA]
          cases hFA : A.fin a1 with
          | error e => rw [hFA] at hd; cases hd
          | ok va =>
            rw [hFA] at hd
            simp only at hd
            cases hfv : f va with
            | error e => rw [hfv] at hd; cases hd
            | ok b0 =>
              rw [hfv] at hd
              simp only at hd
              cases hBD : B.decode b0 remA with
              | error e => rw [hBD] at hd; cases hd
              | ok q =>
                obtain ⟨b1, remB⟩ := q
                rw [hBD] at hd
                simp only at hd
                obtain ⟨h1, h2⟩ := Prod.mk.injEq .. ▸ Except.ok.inj hd
                subst h1
                subst h2
                have hBext :=
                  LB.ext_rem b0 remA ys b1 remB (hf va b0 hfv) hBD hrem
                simp only [hcat, if_neg hcatne, hFA, hfv, hBext]
    | second b =>
      simp only [ThenTryDecoder] at hd ⊢
      cases hBD : B.decode b xs with
      | error e => rw [hBD] at hd; cases hd
      | ok q =>
        obtain ⟨b1, remB⟩ := q
        rw [hBD] at hd
        simp only at hd
        obtain ⟨h1, h2⟩ := Prod.mk.injEq .. ▸ Except.ok.inj hd
        subst h1
        subst h2
        have hBext := LB.ext_rem b xs ys b1 remB hs hBD hrem
        rw [hBext]

/-- Transfer of the splitting laws along an equal decode function (the
value type and finalization may differ; the laws never mention them). -/
theorem decLaws_transfer {σ ε ε' α β : Type} {d1 : Dec σ ε α}
    {d2 : Dec σ ε β} (h : d2.decode = d1.decode) {Inv : σ → Prop}
    {nerr : ε → ε'} (L : DecLaws d1 Inv nerr) : DecLaws d2 Inv nerr := by
  constructor
  · intro s hs
    rw [h]
    exact L.nil_ok s hs
  · intro s xs s' rem hs hd
    rw [h] at hd
    exact L.inv_decode s xs s' rem hs hd
  · intro s xs s' rem hs hd hrem
    rw [h] at hd
    intro zs
    rw [h]
    exact L.sat_of_rem s xs s' rem hs hd hrem zs
  · intro s xs ys e hs hd
    rw [h] at hd
    obtain ⟨e', h1, h2⟩ := L.err_mono s xs ys e hs hd
    exact ⟨e', by rw [h]; exact h1, h2⟩
  · intro s xs ys s' hs hd
    rw [h] at hd
    rcases L.split_ok s xs ys s' hs hd with
      ⟨e, e', hys, hcat, hne⟩ | ⟨s2, rem, hys, hcat⟩
    · exact .inl ⟨e, e', by rw [h]; exact hys, by rw [h]; exact hcat, hne⟩
    · exact .inr ⟨s2, rem, by rw [h]; exact hys, by rw [h]; exact hcat⟩
  · intro s xs ys s' rem hs hd hrem
    rw [h] at hd
    rw [h]
    exact L.ext_rem s xs ys s' rem hs hd hrem

theorem int_laws (w : Nat) :
    DecLaws (IntDecoderBE w) (ByteArrayInv w) (id : UnexpectedEnd → _) :=
  @decLaws_transfer (List Nat) UnexpectedEnd UnexpectedEnd (List Nat) Nat
    (ByteArrayDecoder w) (IntDecoderBE w) rfl (ByteArrayInv w) id
    (byteArray_laws w)

/-- C1 counterexample: for the UTF-8 string decoder with required length 3,
feeding `[0x41, 0xF0, 0x41]` as one chunk reports the invalid-UTF-8 error
with `valid_up_to = 1` (relative to the chunk being validated), while
feeding `[0x41, 0xF0]` then `[0x41]` reports `valid_up_to = 0` (relative
to the unresolved buffer tail): the results are not the same error, so
chunk splitting does not preserve the exact error value. -/
theorem C1_counterexample :
    runD Utf8StringDecoder (utf8New 3) [[0x41, 0xF0, 0x41]] =
      .error (.invalidUtf8 1 (some 1)) ∧
    runD Utf8StringDecoder (utf8New 3) [[0x41, 0xF0], [0x41]] =
      .error (.invalidUtf8 0 (some 1)) ∧
    runD Utf8StringDecoder (utf8New 3) [[0x41, 0xF0, 0x41]] ≠
      runD Utf8StringDecoder (utf8New 3) [[0x41, 0xF0], [0x41]] := by
  refine ⟨rfl, rfl, fun hcontra => ?_⟩
  rw [show runD Utf8StringDecoder (utf8New 3) [[0x41, 0xF0, 0x41]] =
      .error (.invalidUtf8 1 (some 1)) from rfl] at hcontra
  rw [show runD Utf8StringDecoder (utf8New 3) [[0x41, 0xF0], [0x41]] =
      .error (.invalidUtf8 0 (some 1)) from rfl] at hcontra
  simp at hcontra

/-- C1 (amended): for every decoder of the core — the leaf decoders
(byte array, byte vector, single byte, big-endian integer, UTF-8 string)
and every decoder assembled from law-abiding stages by Chain, Then and
ThenTry — feeding an input as one chunk produces the same decoded value
on success and an error of the same kind (same stage, same
classification, same missing-byte count) as feeding it split into any
chunks in order; only the position payload inside the UTF-8
invalid-content error may differ with the split (`nerr` erases exactly
that payload, and is the identity for all other leaf decoders).  The
first conjunct is the master splitting theorem, the remaining conjuncts
establish that every core decoder satisfies its laws. -/
theorem C1_amended :
    (∀ (σ ε ε' α : Type) (d : Dec σ ε α) (Inv : σ → Prop) (nerr : ε → ε'),
      DecLaws d Inv nerr → ∀ cs s, Inv s →
        (runD d s cs).mapError nerr =
          (runD d s [cs.flatten]).mapError nerr) ∧
    (∀ N, DecLaws (ByteArrayDecoder N) (ByteArrayInv N) id) ∧
    DecLaws ByteVecDecoder ByteVecInv id ∧
    DecLaws U8Decoder (fun _ => True) id ∧
    (∀ w, DecLaws (IntDecoderBE w) (ByteArrayInv w) id) ∧
    DecLaws Utf8StringDecoder Utf8Inv utf8Nerr ∧
    (∀ (σA εA εA' αA σB εB εB' αB : Type)
      (A : Dec σA εA αA) (B : Dec σB εB αB)
      (InvA : σA → Prop) (InvB : σB → Prop)
      (nerrA : εA → εA') (nerrB : εB → εB'),
      DecLaws A InvA nerrA → DecLaws B InvB nerrB →
        DecLaws (ChainDecoder A B) (ChainInv InvA InvB)
          (Sum.map nerrA nerrB)) ∧
    (∀ (σA εA εA' αA σB εB εB' αB : Type)
      (A : Dec σA εA αA) (B : Dec σB εB αB) (f : αA → σB)
      (InvA : σA → Prop) (InvB : σB → Prop)
      (nerrA : εA → εA') (nerrB : εB → εB'),
      DecLaws A InvA nerrA → DecLaws B InvB nerrB → (∀ v, InvB (f v)) →
        DecLaws (ThenDecoder A B f) (ThenInv InvA InvB)
          (Sum.map nerrA nerrB)) ∧
    (∀ (σA εA εA' αA σB εB εB' αB ε ε2 : Type)
      (A : Dec σA εA αA) (B : Dec σB εB αB)
      (injA : εA → ε) (injB : εB → ε) (f : αA → Except ε σB)
      (InvA : σA → Prop) (InvB : σB → Prop)
      (nerrA : εA → εA') (nerrB : εB → εB') (nerr : ε → ε2),
      DecLaws A InvA nerrA → DecLaws B InvB nerrB →
      (∀ v b0, f v = .ok b0 → InvB b0) →
      (∀ e1 e2, nerrA e1 = nerrA e2 → nerr (injA e1) = nerr (injA e2)) →
      (∀ e1 e2, nerrB e1 = nerrB e2 → nerr (injB e1) = nerr (injB e2)) →
        DecLaws (ThenTryDecoder A B injA injB f) (ThenInv InvA InvB) nerr) :=
  ⟨fun _ _ _ _ d Inv nerr L cs s hs => runD_split d Inv nerr L cs s hs,
    byteArray_laws, byteVec_laws, u8_laws, int_laws, utf8_laws,
    fun _ _ _ _ _ _ _ _ A B _ _ _ _ LA LB => chain_laws A B LA LB,
    fun _ _ _ _ _ _ _ _ A B f _ _ _ _ LA LB hf => then_laws A B f LA LB hf,
    fun _ _ _ _ _ _ _ _ _ _ A B injA injB f _ _ _ _ nerr LA LB hf hcA hcB =>
      thenTry_laws A B injA injB f nerr LA LB hf hcA hcB⟩

/-- Witness for C1 (amended): the UTF-8 decoder with required length 4,
fed the crab scalar split as `[0xF0, 0x9F]` then `[0xA6, 0x80]`, gives the
same normalized outcome as the unsplit feed, by the master theorem applied
to the proven UTF-8 laws at the initial state. -/
theorem C1_witness :
    (runD Utf8StringDecoder (utf8New 4)
        [[0xF0, 0x9F], [0xA6, 0x80]]).mapError utf8Nerr =
      (runD Utf8StringDecoder (utf8New 4)
        [[[0xF0, 0x9F], [0xA6, 0x80]].flatten]).mapError utf8Nerr :=
  C1_amended.1 Utf8St Utf8Err Utf8ErrN (List Nat) Utf8StringDecoder Utf8Inv
    utf8Nerr C1_amended.2.2.2.2.2.1 [[0xF0, 0x9F], [0xA6, 0x80]]
    (utf8New 4) ⟨rfl, fun v e => by simp [utf8V], by simp [utf8New]⟩

/-- C2: the fixed-size byte accumulator and the growable byte accumulator
never fail in `decode_chunk` — every call returns Ok, appends exactly
`min(offered, remaining need)` bytes to the buffer and leaves the rest of
the input view — and `end` returns the accumulated bytes when at least
the required number were received, otherwise an UnexpectedEnd error
whose `missing` field is exactly the required length minus the number of
bytes received. -/
theorem C2_byte_accumulators :
    (∀ (N : Nat) (s xs : List Nat),
      (ByteArrayDecoder N).decode s xs =
        .ok (s ++ xs.take (min xs.length (N - s.length)),
          xs.drop (min xs.length (N - s.length)))) ∧
    (∀ (N : Nat) (s : List Nat), N ≤ s.length →
      (ByteArrayDecoder N).fin s = .ok s) ∧
    (∀ (N : Nat) (s : List Nat), s.length < N →
      (ByteArrayDecoder N).fin s = .error ⟨N - s.length⟩) ∧
    (∀ (s : ByteVecSt) (xs : List Nat),
      ByteVecDecoder.decode s xs =
        .ok (⟨s.buf ++ xs.take (min xs.length (s.required - s.buf.length)),
          s.required,
          max s.cap
            (s.buf.length + min xs.length (s.required - s.buf.length))⟩,
          xs.drop (min xs.length (s.required - s.buf.length)))) ∧
    (∀ s : ByteVecSt, s.required ≤ s.buf.length →
      ByteVecDecoder.fin s = .ok s.buf) ∧
    (∀ s : ByteVecSt, s.buf.length < s.required →
      ByteVecDecoder.fin s = .error ⟨s.required - s.buf.length⟩) := by
  refine ⟨fun N s xs => rfl, ?_, ?_, fun s xs => rfl, ?_, ?_⟩
  · intro N s h
    simp only [ByteArrayDecoder]
    rw [if_neg (by omega)]
  · intro N s h
    simp only [ByteArrayDecoder]
    rw [if_pos h]
  · intro s h
    simp only [ByteVecDecoder]
    rw [if_neg (by omega)]
  · intro s h
    simp only [ByteVecDecoder]
    rw [if_pos h]

/-- Witness for C2: a 2-byte array decoder that received one byte reports
a deficit of exactly one byte, and a full one returns its bytes. -/
theorem C2_witness :
    (2 : Nat) ≤ ([5, 6] : List Nat).length ∧
    ([7] : List Nat).length < 2 ∧
    (ByteArrayDecoder 2).decode [] [5, 6, 9] = .ok ([5, 6], [9]) ∧
    (ByteArrayDecoder 2).fin [5, 6] = .ok [5, 6] ∧
    (ByteArrayDecoder 2).fin [7] = .error ⟨1⟩ ∧
    ByteVecDecoder.fin ⟨[7], 2, 2⟩ = .error ⟨1⟩ :=
  ⟨by decide, by decide,
    (C2_byte_accumulators.1 2 [] [5, 6, 9]).trans (by rfl),
    C2_byte_accumulators.2.1 2 [5, 6] (by decide),
    C2_byte_accumulators.2.2.1 2 [7] (by decide),
    C2_byte_accumulators.2.2.2.2.2 ⟨[7], 2, 2⟩ (by decide)⟩

/-- C3: the UTF-8 string decoder with required length 4 decodes the
4-byte scalar U+1F980 (bytes F0 9F A6 80, the string's UTF-8 bytes being
the model's string value) identically under all three internal splits,
and with required length 3 the never-completed tail F0 9F A6 makes `end`
fail with an invalid-UTF-8 (invalid-content) error — not success and not
a missing-bytes error. -/
theorem C3_utf8_boundary :
    runD Utf8StringDecoder (utf8New 4) [[0xF0], [0x9F, 0xA6, 0x80]] =
      .ok [0xF0, 0x9F, 0xA6, 0x80] ∧
    runD Utf8StringDecoder (utf8New 4) [[0xF0, 0x9F], [0xA6, 0x80]] =
      .ok [0xF0, 0x9F, 0xA6, 0x80] ∧
    runD Utf8StringDecoder (utf8New 4) [[0xF0, 0x9F, 0xA6], [0x80]] =
      .ok [0xF0, 0x9F, 0xA6, 0x80] ∧
    runD Utf8StringDecoder (utf8New 4) [[0xF0, 0x9F, 0xA6, 0x80]] =
      .ok [0xF0, 0x9F, 0xA6, 0x80] ∧
    runD Utf8StringDecoder (utf8New 3) [[0xF0, 0x9F], [0xA6]] =
      .error (.invalidUtf8 0 none) :=
  ⟨rfl, rfl, rfl, rfl, rfl⟩

/-- C9: in the fast path (everything buffered is proven valid) a definite
illegal byte sequence in the prefix to copy makes `decode_chunk` fail
immediately and atomically: the state (buffer and `valid_up_to`) is
unchanged and the input view is not advanced. -/
theorem C9_fast_path_atomic (s : Utf8St) (xs : List Nat) (v e : Nat)
    (hfast : s.validUpTo = s.buf.length)
    (htc : utf8Tc s xs ≠ 0)
    (hinv : utf8V (xs.take (utf8Tc s xs)) = .invalid v e) :
    utf8Step s xs = (s, xs, some (.invalidUtf8 v (some e))) ∧
    Utf8StringDecoder.decode s xs = .error (.invalidUtf8 v (some e)) := by
  obtain ⟨buf, vut, req⟩ := s
  simp only [utf8Tc] at htc hinv
  simp only at hfast
  have hstep : utf8Step ⟨buf, vut, req⟩ xs =
      (⟨buf, vut, req⟩, xs, some (.invalidUtf8 v (some e))) := by
    simp only [utf8Step, htc, hfast, hinv, reduceIte]
  exact ⟨hstep, by simp only [Utf8StringDecoder, hstep]⟩

/-- Witness for C9: a fresh 2-byte UTF-8 decoder offered the illegal byte
0xFF fails at once without consuming it or touching its state. -/
theorem C9_witness :
    (utf8New 2).validUpTo = (utf8New 2).buf.length ∧
    utf8Tc (utf8New 2) [0xFF] ≠ 0 ∧
    utf8V (([0xFF] : List Nat).take (utf8Tc (utf8New 2) [0xFF])) =
      .invalid 0 1 ∧
    utf8Step (utf8New 2) [0xFF] =
      (utf8New 2, [0xFF], some (.invalidUtf8 0 (some 1))) :=
  ⟨rfl, by decide, by decide,
    (C9_fast_path_atomic (utf8New 2) [0xFF] 0 1 rfl (by decide)
      (by decide)).1⟩

/-- Per-call observation of a decoder run: the number of bytes consumed
by each successful `decode_chunk` call, and the final outcome (the first
error, or the result of `end`). -/
def runTrace (d : Dec σ ε α) : σ → List (List Nat) → List Nat × Except ε α
  | s, [] => ([], d.fin s)
  | s, c :: cs =>
    match d.decode s c with
    | .error e => ([], .error e)
    | .ok (s', rem) =>
      ((c.length - rem.length) :: (runTrace d s' cs).1,
        (runTrace d s' cs).2)

theorem byteVec_trace_congr (s1 s2 : ByteVecSt) (hb : s1.buf = s2.buf)
    (hr : s1.required = s2.required) :
    ∀ cs, runTrace ByteVecDecoder s1 cs = runTrace ByteVecDecoder s2 cs := by
  intro cs
  induction cs generalizing s1 s2 with
  | nil =>
    simp only [runTrace, ByteVecDecoder, hb, hr]
  | cons c cs ih =>
    simp only [runTrace, byteVecDecode_eq, hb, hr]
    rw [ih ⟨s2.buf ++ c.take (min c.length (s2.required - s2.buf.length)),
      s2.required, max s1.cap (s2.buf.length +
        min c.length (s2.required - s2.buf.length))⟩
      ⟨s2.buf ++ c.take (min c.length (s2.required - s2.buf.length)),
      s2.required, max s2.cap (s2.buf.length +
        min c.length (s2.required - s2.buf.length))⟩ rfl rfl]

/-- C10: `with_reserve_limit(required, limit)` is observationally
equivalent to `new(required)`: on every chunk sequence both consume
exactly the same byte counts and `end` gives the same value or the same
UnexpectedEnd error; the limit only caps the initially preallocated
capacity, never the bytes that can be accumulated or required. -/
theorem C10_reserve_limit (required limit : Nat) :
    (∀ cs, runTrace ByteVecDecoder (byteVecWithReserveLimit required limit)
        cs =
      runTrace ByteVecDecoder (byteVecNew required) cs) ∧
    (byteVecWithReserveLimit required limit).cap = min required limit ∧
    (byteVecNew required).cap = required ∧
    (byteVecWithReserveLimit required limit).buf = (byteVecNew required).buf ∧
    (byteVecWithReserveLimit required limit).required =
      (byteVecNew required).required :=
  ⟨byteVec_trace_congr _ _ rfl rfl, rfl, rfl, rfl, rfl⟩

/-! ### Round trip through the Chain combinators -/

theorem natToBeBytes_length (w : Nat) : ∀ v, (natToBeBytes w v).length = w := by
  induction w with
  | zero => intro v; rfl
  | succ w ih =>
    intro v
    simp [natToBeBytes, ih]

theorem natFromBeBytes_append_one (l : List Nat) (x : Nat) :
    natFromBeBytes (l ++ [x]) = natFromBeBytes l * 256 + x := by
  simp [natFromBeBytes, List.foldl_append]

theorem natFromBeBytes_natToBeBytes (w : Nat) :
    ∀ v, natFromBeBytes (natToBeBytes w v) = v % 256 ^ w := by
  induction w with
  | zero =>
    intro v
    simp [natToBeBytes, natFromBeBytes, Nat.mod_one]
  | succ w ih =>
    intro v
    rw [natToBeBytes, natFromBeBytes_append_one, ih]
    rw [Nat.pow_succ, Nat.mul_comm (256 ^ w) 256, Nat.mod_mul]
    omega

theorem natToBeBytes_roundtrip {w v : Nat} (h : v < 256 ^ w) :
    natFromBeBytes (natToBeBytes w v) = v := by
  rw [natFromBeBytes_natToBeBytes, Nat.mod_eq_of_lt h]

/-- The int encoder's state machine is the byte encoder's: the bytes are
precomputed at construction and emitted as one chunk. -/
theorem intEncoderE_eq_bytesEncoderE : IntEncoderE = BytesEncoderE := rfl

/-- Collecting all chunks of `Chain(BytesEncoder xs, BytesEncoder ys)`
yields the concatenation, first-stage elision included. -/
theorem writeToVec_chainE_bytes (xs ys : List Nat) :
    writeToVec (ChainE BytesEncoderE BytesEncoderE) 3
      (chainENew BytesEncoderE xs ys) = xs ++ ys := by
  by_cases hxs : xs = []
  · subst hxs
    by_cases hys : ys = []
    · subst hys
      rfl
    · simp [chainENew, BytesEncoderE, writeToVec, ChainE, hys]
  · by_cases hys : ys = []
    · subst hys
      simp [chainENew, BytesEncoderE, writeToVec, ChainE, hxs]
    · have hyse : ys.isEmpty = false := by simp [hys]
      simp [chainENew, BytesEncoderE, writeToVec, ChainE, hxs, hys, hyse]

theorem chain_byteVec_roundtrip (xs ys : List Nat) :
    runD (ChainDecoder ByteVecDecoder ByteVecDecoder)
      (.first (byteVecNew xs.length) (byteVecNew ys.length)) [xs ++ ys] =
      .ok (xs, ys) := by
  have hA : ByteVecDecoder.decode (byteVecNew xs.length) (xs ++ ys) =
      .ok (⟨xs, xs.length, max xs.length xs.length⟩, ys) := by
    rw [byteVecDecode_eq]
    simp only [byteVecNew, List.length_nil, Nat.sub_zero, List.length_append]
    rw [Nat.min_eq_right (by omega), List.take_left, List.drop_left]
    simp
  have hAfin : ByteVecDecoder.fin ⟨xs, xs.length,
      max xs.length xs.length⟩ = .ok xs := by
    simp only [ByteVecDecoder]
    rw [if_neg (by simp)]
  by_cases hys : ys = []
  · subst hys
    have hBfin : ByteVecDecoder.fin (byteVecNew ([] : List Nat).length) =
        .ok [] := by
      simp only [ByteVecDecoder, byteVecNew, List.length_nil]
      rw [if_neg (by simp)]
    simp only [runD, ChainDecoder, hA, List.isEmpty_nil, if_true]
    simp only [runD, ChainDecoder, hAfin, hBfin]
  · have hyse : ys.isEmpty = false := by simp [hys]
    have hB : ByteVecDecoder.decode (byteVecNew ys.length) ys =
        .ok (⟨ys, ys.length, max ys.length ys.length⟩, []) := by
      rw [byteVecDecode_eq]
      simp only [byteVecNew, List.length_nil, Nat.sub_zero]
      rw [Nat.min_eq_right (by omega), List.take_length, List.drop_length]
      simp
    have hBfin : ByteVecDecoder.fin ⟨ys, ys.length,
        max ys.length ys.length⟩ = .ok ys := by
      simp only [ByteVecDecoder]
      rw [if_neg (by simp)]
    simp only [runD, ChainDecoder, hA, hyse, Bool.false_eq_true, if_false,
      hAfin, hB, hBfin]

theorem chain_int_roundtrip (w a b : Nat) (hw : 0 < w) (ha : a < 256 ^ w)
    (hb : b < 256 ^ w) :
    runD (ChainDecoder (IntDecoderBE w) (IntDecoderBE w)) (.first [] [])
      [natToBeBytes w a ++ natToBeBytes w b] = .ok (a, b) := by
  have hlena := natToBeBytes_length w a
  have hlenb := natToBeBytes_length w b
  have hbne : natToBeBytes w b ≠ [] := by
    intro hh
    rw [hh] at hlenb
    simp at hlenb
    omega
  have hA : (IntDecoderBE w).decode [] (natToBeBytes w a ++ natToBeBytes w b)
      = .ok (natToBeBytes w a, natToBeBytes w b) := by
    show byteArrayDecode w [] _ = _
    rw [byteArrayDecode_eq]
    simp only [List.length_nil, Nat.sub_zero, List.length_append, hlena,
      hlenb, List.nil_append]
    rw [Nat.min_eq_right (by omega), List.take_left' hlena,
      List.drop_left' hlena]
  have hAfin : (IntDecoderBE w).fin (natToBeBytes w a) = .ok a := by
    simp only [IntDecoderBE]
    rw [if_neg (by omega), natToBeBytes_roundtrip ha]
  have hB : (IntDecoderBE w).decode [] (natToBeBytes w b) =
      .ok (natToBeBytes w b, []) := by
    show byteArrayDecode w [] _ = _
    rw [byteArrayDecode_eq]
    simp only [List.length_nil, Nat.sub_zero, hlenb, List.nil_append]
    rw [Nat.min_eq_right (by omega),
      List.take_of_length_le (by omega), List.drop_eq_nil_of_le (by omega)]
  have hBfin : (IntDecoderBE w).fin (natToBeBytes w b) = .ok b := by
    simp only [IntDecoderBE]
    rw [if_neg (by omega), natToBeBytes_roundtrip hb]
  have hbnee : (natToBeBytes w b).isEmpty = false := by
    cases hcase : natToBeBytes w b with
    | nil => exact absurd hcase hbne
    | cons x t => rfl
  simp only [runD, ChainDecoder, hA, hbnee, Bool.false_eq_true, if_false,
    hAfin, hB, hBfin]

/-- C4: encoding a pair with the primitive encoders concatenated by the
encoder Chain, then decoding the collected bytes with the matching
decoder Chain, reproduces the pair exactly — for two big-endian
fixed-width integers (any width, any in-range values) via IntEncoder /
IntDecoder, and for two byte strings via BytesEncoder / ByteVecDecoder. -/
theorem C4_roundtrip :
    (∀ w a b : Nat, 0 < w → a < 256 ^ w → b < 256 ^ w →
      runD (ChainDecoder (IntDecoderBE w) (IntDecoderBE w)) (.first [] [])
        [writeToVec (ChainE IntEncoderE IntEncoderE) 3
          (chainENew IntEncoderE (intEncoderNewBe w a)
            (intEncoderNewBe w b))] = .ok (a, b)) ∧
    (∀ xs ys : List Nat,
      runD (ChainDecoder ByteVecDecoder ByteVecDecoder)
        (.first (byteVecNew xs.length) (byteVecNew ys.length))
        [writeToVec (ChainE BytesEncoderE BytesEncoderE) 3
          (chainENew BytesEncoderE xs ys)] = .ok (xs, ys)) := by
  constructor
  · intro w a b hw ha hb
    rw [intEncoderE_eq_bytesEncoderE]
    rw [show intEncoderNewBe w a = natToBeBytes w a from rfl,
      show intEncoderNewBe w b = natToBeBytes w b from rfl]
    rw [writeToVec_chainE_bytes]
    exact chain_int_roundtrip w a b hw ha hb
  · intro xs ys
    rw [writeToVec_chainE_bytes]
    exact chain_byteVec_roundtrip xs ys

/-- Witness for C4: the pair (1, 770) of 2-byte big-endian integers and
the byte-string pair ([1], [2, 3]) both round trip. -/
theorem C4_witness :
    ((0 : Nat) < 2 ∧ (1 : Nat) < 256 ^ 2 ∧ (770 : Nat) < 256 ^ 2 ∧
      runD (ChainDecoder (IntDecoderBE 2) (IntDecoderBE 2)) (.first [] [])
        [writeToVec (ChainE IntEncoderE IntEncoderE) 3
          (chainENew IntEncoderE (intEncoderNewBe 2 1)
            (intEncoderNewBe 2 770))] = .ok (1, 770)) ∧
    runD (ChainDecoder ByteVecDecoder ByteVecDecoder)
      (.first (byteVecNew [1].length) (byteVecNew [2, 3].length))
      [writeToVec (ChainE BytesEncoderE BytesEncoderE) 3
        (chainENew BytesEncoderE [1] [2, 3])] = .ok ([1], [2, 3]) :=
  ⟨⟨by decide, by decide, by decide,
    C4_roundtrip.1 2 1 770 (by decide) (by decide) (by decide)⟩,
    C4_roundtrip.2 [1] [2, 3]⟩

/-! ### C5: min_required_bytes -/

/-- `ByteArrayDecoder::min_required_bytes`: `N - self.len`. -/
def byteArrayMin (N : Nat) (s : List Nat) : Nat := N - s.length

/-- `ByteVecDecoder::min_required_bytes`: `self.required - self.buf.len()`. -/
def byteVecMin (s : ByteVecSt) : Nat := s.required - s.buf.length

/-- `U8Decoder::min_required_bytes`. -/
def u8Min : Option Nat → Nat
  | none => 1
  | some _ => 0

/-- `Utf8StringDecoder::min_required_bytes`:
`self.required - self.buf.len()`. -/
def utf8Min (s : Utf8St) : Nat := s.required - s.buf.length

/-- `Chain::min_required_bytes`: saturating sum in the first stage, the
second stage's value afterwards. -/
def chainMin (mA : σA → Nat) (mB : σB → Nat) : ChainSt σA αA σB → Nat
  | .first a b => mA a + mB b
  | .second _ b => mB b

/-- An error that reports plain insufficiency of bytes (as opposed to a
content violation). -/
def utf8Missing : Utf8Err → Prop
  | .unexpectedEnd _ => True
  | .invalidUtf8 _ _ => False

/-- Laws of the minimum-length capability, verified per decoder:
a successful `decode_chunk` keeps the invariant, consumes exactly
`min(offered, min_required_bytes)` bytes and decrements
`min_required_bytes` by that amount; `end` fails whenever the minimum is
still positive; and once the minimum is zero, `end` can no longer fail
with a missing-bytes error. -/
structure MinLaws (d : Dec σ ε α) (Inv : σ → Prop) (minR : σ → Nat)
    (missing : ε → Prop) : Prop where
  inv_pres : ∀ s xs s' rem, Inv s → d.decode s xs = .ok (s', rem) → Inv s'
  consume_exact : ∀ s xs s' rem, Inv s → d.decode s xs = .ok (s', rem) →
    rem.length = xs.length - min xs.length (minR s) ∧
    minR s' = minR s - min xs.length (minR s)
  fin_err_of_pos : ∀ s, Inv s → 0 < minR s → ∃ e, d.fin s = .error e
  fin_not_missing : ∀ s, Inv s → minR s = 0 → ∀ e, d.fin s = .error e →
    ¬ missing e

theorem byteArrayMinLaws (N : Nat) :
    MinLaws (ByteArrayDecoder N) (ByteArrayInv N) (byteArrayMin N)
      (fun _ => True) := by
  constructor
  · exact (byteArray_laws N).inv_decode
  · intro s xs s' rem hs hd
    simp only [ByteArrayDecoder, byteArrayDecode, Except.ok.injEq,
      Prod.mk.injEq] at hd
    obtain ⟨h1, h2⟩ := hd
    subst h1
    subst h2
    simp only [ByteArrayInv] at hs
    constructor
    · simp only [List.length_drop, byteArrayMin]
    · simp only [byteArrayMin, List.length_append, List.length_take]
      omega
  · intro s hs hpos
    simp only [byteArrayMin] at hpos
    refine ⟨⟨N - s.length⟩, ?_⟩
    simp only [ByteArrayDecoder]
    rw [if_pos (by omega)]
  · intro s hs h0 e hfin
    simp only [byteArrayMin] at h0
    simp only [ByteArrayInv] at hs
    simp only [ByteArrayDecoder] at hfin
    rw [if_neg (by omega)] at hfin
    cases hfin

theorem byteVecMinLaws :
    MinLaws ByteVecDecoder ByteVecInv byteVecMin (fun _ => True) := by
  constructor
  · exact byteVec_laws.inv_decode
  · intro s xs s' rem hs hd
    simp only [byteVecDecode_eq, Except.ok.injEq, Prod.mk.injEq] at hd
    obtain ⟨h1, h2⟩ := hd
    subst h1
    subst h2
    obtain ⟨hs1, hs2⟩ := hs
    constructor
    · simp only [List.length_drop, byteVecMin]
    · simp only [byteVecMin, List.length_append, List.length_take]
      omega
  · intro s hs hpos
    simp only [byteVecMin] at hpos
    refine ⟨⟨s.required - s.buf.length⟩, ?_⟩
    simp only [ByteVecDecoder]
    rw [if_pos (by omega)]
  · intro s hs h0 e hfin
    simp only [byteVecMin] at h0
    obtain ⟨hs1, hs2⟩ := hs
    simp only [ByteVecDecoder] at hfin
    rw [if_neg (by omega)] at hfin
    cases hfin

theorem u8MinLaws :
    MinLaws U8Decoder (fun _ => True) u8Min (fun _ => True) := by
  constructor
  · intro s xs s' rem _ _
    trivial
  · intro s xs s' rem _ hd
    cases s with
    | none =>
      cases xs with
      | nil =>
        simp only [U8Decoder, Except.ok.injEq, Prod.mk.injEq] at hd
        obtain ⟨h1, h2⟩ := hd
        subst h1
        subst h2
        simp [u8Min]
      | cons b rest =>
        simp only [U8Decoder, Except.ok.injEq, Prod.mk.injEq] at hd
        obtain ⟨h1, h2⟩ := hd
        subst h1
        subst h2
        simp only [u8Min, List.length_cons]
        omega
    | some a =>
      simp only [U8Decoder, Except.ok.injEq, Prod.mk.injEq] at hd
      obtain ⟨h1, h2⟩ := hd
      subst h1
      subst h2
      simp [u8Min]
  · intro s _ hpos
    cases s with
    | none => exact ⟨⟨1⟩, rfl⟩
    | some b => simp [u8Min] at hpos
  · intro s _ h0 e hfin
    cases s with
    | none => simp [u8Min] at h0
    | some b =>
      simp only [U8Decoder] at hfin
      cases hfin

theorem utf8MinLaws :
    MinLaws Utf8StringDecoder Utf8Inv utf8Min utf8Missing := by
  constructor
  · intro s xs s' rem hs hd
    obtain ⟨hni, hs', hr⟩ := utf8Decode_ok_inv s xs s' rem hs hd
    subst hs'
    apply utf8Canon_inv hni
    have hb : s.buf.length ≤ s.required := hs.2.2
    simp only [List.length_append, List.length_take, utf8Tc]
    omega
  · intro s xs s' rem hs hd
    obtain ⟨hni, hs', hr⟩ := utf8Decode_ok_inv s xs s' rem hs hd
    subst hs'
    subst hr
    have hb : s.buf.length ≤ s.required := hs.2.2
    constructor
    · simp only [List.length_drop, utf8Tc, utf8Min]
    · simp only [utf8Min, utf8Canon, List.length_append, List.length_take,
        utf8Tc]
      omega
  · intro s hs hpos
    simp only [utf8Min] at hpos
    refine ⟨.unexpectedEnd (s.required - s.buf.length), ?_⟩
    simp only [Utf8StringDecoder]
    rw [if_pos (by omega)]
  · intro s hs h0 e hfin
    simp only [utf8Min] at h0
    have hb : s.buf.length ≤ s.required := hs.2.2
    simp only [Utf8StringDecoder] at hfin
    rw [if_neg (by omega)] at hfin
    by_cases hv : s.validUpTo = s.buf.length
    · rw [if_pos hv] at hfin
      cases hfin
    · rw [if_neg hv] at hfin
      cases hV : utf8V s.buf with
      | ok =>
        rw [hV] at hfin
        simp only at hfin
        cases hfin
      | incomplete v =>
        rw [hV] at hfin
        simp only at hfin
        cases Except.error.inj hfin
        simp [utf8Missing]
      | invalid v el => exact absurd hV (hs.2.1 v el)

theorem chainMinLaws {σA εA αA σB εB αB : Type}
    {A : Dec σA εA αA} {B : Dec σB εB αB}
    {InvA : σA → Prop} {InvB : σB → Prop} {mA : σA → Nat} {mB : σB → Nat}
    {missA : εA → Prop} {missB : εB → Prop}
    (LA : MinLaws A InvA mA missA) (LB : MinLaws B InvB mB missB) :
    MinLaws (ChainDecoder A B) (ChainInv InvA InvB) (chainMin mA mB)
      (Sum.elim missA missB) := by
  constructor
  · -- inv_pres
    intro s xs s' rem hs hd
    cases s with
    | first a b =>
      obtain ⟨ha, hb⟩ := hs
      simp only [ChainDecoder] at hd
      cases hdA : A.decode a xs with
      | error e =>
        rw [hdA] at hd
        simp only at hd
        cases hd
      | ok p =>
        obtain ⟨a1, remA⟩ := p
        rw [hdA] at hd
        simp only at hd
        by_cases hre : remA.isEmpty
        · rw [if_pos hre] at hd
          obtain ⟨h1, h2⟩ := Prod.mk.injEq .. ▸ Except.ok.inj hd
          subst h1
          exact ⟨LA.inv_pres a xs a1 remA ha hdA, hb⟩
        · rw [if_neg hre] at hd
          cases hfA : A.fin a1 with
          | error e =>
            rw [hfA] at hd
            simp only at hd
            cases hd
          | ok va =>
            rw [hfA] at hd
            simp only at hd
            cases hdB : B.decode b remA with
            | error e =>
              rw [hdB] at hd
              simp only at hd
              cases hd
            | ok q =>
              obtain ⟨b1, remB⟩ := q
              rw [hdB] at hd
              simp only at hd
              obtain ⟨h1, h2⟩ := Prod.mk.injEq .. ▸ Except.ok.inj hd
              subst h1
              exact LB.inv_pres b remA b1 remB hb hdB
    | second va b =>
      simp only [ChainDecoder] at hd
      cases hdB : B.decode b xs with
      | error e =>
        rw [hdB] at hd
        simp only at hd
        cases hd
      | ok q =>
        obtain ⟨b1, remB⟩ := q
        rw [hdB] at hd
        simp only at hd
        obtain ⟨h1, h2⟩ := Prod.mk.injEq .. ▸ Except.ok.inj hd
        subst h1
        exact LB.inv_pres b xs b1 remB hs hdB
  · -- consume_exact
    intro s xs s' rem hs hd
    cases s with
    | first a b =>
      obtain ⟨ha, hb⟩ := hs
      simp only [ChainDecoder] at hd
      cases hdA : A.decode a xs with
      | error e =>
        rw [hdA] at hd
        simp only at hd
        cases hd
      | ok p =>
        obtain ⟨a1, remA⟩ := p
        rw [hdA] at hd
        simp only at hd
        obtain ⟨hA1, hA2⟩ := LA.consume_exact a xs a1 remA ha hdA
        by_cases hre : remA.isEmpty
        · rw [if_pos hre] at hd
          obtain ⟨h1, h2⟩ := Prod.mk.injEq .. ▸ Except.ok.inj hd
          subst h1
          subst h2
          have hrnil : remA.length = 0 := by
            cases remA with
            | nil => rfl
            | cons x t => cases hre
          constructor
          · simp only [chainMin]
            omega
          · simp only [chainMin]
            omega
        · rw [if_neg hre] at hd
          have hrpos : 0 < remA.length := by
            cases remA with
            | nil => exact absurd rfl hre
            | cons x t => simp
          cases hfA : A.fin a1 with
          | error e =>
            rw [hfA] at hd
            simp only at hd
            cases hd
          | ok va =>
            rw [hfA] at hd
            simp only at hd
            cases hdB : B.decode b remA with
            | error e =>
              rw [hdB] at hd
              simp only at hd
              cases hd
            | ok q =>
              obtain ⟨b1, remB⟩ := q
              rw [hdB] at hd
              simp only at hd
              obtain ⟨h1, h2⟩ := Prod.mk.injEq .. ▸ Except.ok.inj hd
              subst h1
              subst h2
              obtain ⟨hB1, hB2⟩ := LB.consume_exact b remA b1 remB hb hdB
              constructor
              · simp only [chainMin]
                omega
              · simp only [chainMin]
                omega
    | second va b =>
      simp only [ChainDecoder] at hd
      cases hdB : B.decode b xs with
      | error e =>
        rw [hdB] at hd
        simp only at hd
        cases hd
      | ok q =>
        obtain ⟨b1, remB⟩ := q
        rw [hdB] at hd
        simp only at hd
        obtain ⟨h1, h2⟩ := Prod.mk.injEq .. ▸ Except.ok.inj hd
        subst h1
        subst h2
        obtain ⟨hB1, hB2⟩ := LB.consume_exact b xs b1 remB hs hdB
        exact ⟨hB1, hB2⟩
  · -- fin_err_of_pos
    intro s hs hpos
    cases s with
    | first a b =>
      obtain ⟨ha, hb⟩ := hs
      simp only [chainMin] at hpos
      cases hfA : A.fin a with
      | error e => exact ⟨.inl e, by simp only [ChainDecoder, hfA]⟩
      | ok va =>
        have hmA0 : mA a = 0 := by
          by_contra hne
          obtain ⟨e, he⟩ := LA.fin_err_of_pos a ha (Nat.pos_of_ne_zero hne)
          rw [he] at hfA
          cases hfA
        have hmBpos : 0 < mB b := by omega
        obtain ⟨e, he⟩ := LB.fin_err_of_pos b hb hmBpos
        exact ⟨.inr e, by simp only [ChainDecoder, hfA, he]⟩
    | second va b =>
      simp only [chainMin] at hpos
      obtain ⟨e, he⟩ := LB.fin_err_of_pos b hs hpos
      exact ⟨.inr e, by simp only [ChainDecoder, he]⟩
  · -- fin_not_missing
    intro s hs h0 e hfin
    cases s with
    | first a b =>
      obtain ⟨ha, hb⟩ := hs
      simp only [chainMin] at h0
      have hmA0 : mA a = 0 := by omega
      have hmB0 : mB b = 0 := by omega
      simp only [ChainDecoder] at hfin
      cases hfA : A.fin a with
      | error eA =>
        rw [hfA] at hfin
        simp only at hfin
        cases Except.error.inj hfin
        exact LA.fin_not_missing a ha hmA0 eA hfA
      | ok va =>
        rw [hfA] at hfin
        simp only at hfin
        cases hfB : B.fin b with
        | error eB =>
          rw [hfB] at hfin
          simp only at hfin
          cases Except.error.inj hfin
          exact LB.fin_not_missing b hb hmB0 eB hfB
        | ok vb =>
          rw [hfB] at hfin
          simp only at hfin
          cases hfin
    | second va b =>
      simp only [chainMin] at h0
      simp only [ChainDecoder] at hfin
      cases hfB : B.fin b with
      | error eB =>
        rw [hfB] at hfin
        simp only at hfin
        cases Except.error.inj hfin
        exact LB.fin_not_missing b hs h0 eB hfB
      | ok vb =>
        rw [hfB] at hfin
        simp only at hfin
        cases hfin

/-- Counterexample to C5's "zero iff terminal" biconditional: the UTF-8
decoder with required length 2, after receiving the two bytes
`[0xF0, 0x9F]` (a truncated 4-byte sequence), reports
`min_required_bytes = 0` and a further `decode_chunk` indeed consumes
nothing, yet `end` does not succeed — it fails with an invalid-UTF-8
content error. `min_required_bytes = 0` therefore does not imply that
the decoder is at a state where `end` succeeds. -/
theorem C5_counterexample :
    Utf8StringDecoder.decode (utf8New 2) [0xF0, 0x9F] =
      .ok (⟨[0xF0, 0x9F], 0, 2⟩, []) ∧
    utf8Min ⟨[0xF0, 0x9F], 0, 2⟩ = 0 ∧
    Utf8StringDecoder.decode ⟨[0xF0, 0x9F], 0, 2⟩ [0x41] =
      .ok (⟨[0xF0, 0x9F], 0, 2⟩, [0x41]) ∧
    Utf8StringDecoder.fin ⟨[0xF0, 0x9F], 0, 2⟩ =
      .error (.invalidUtf8 0 none) ∧
    ∀ v, Utf8StringDecoder.fin ⟨[0xF0, 0x9F], 0, 2⟩ ≠ .ok v := by
  refine ⟨rfl, rfl, rfl, rfl, fun v h => ?_⟩
  rw [show Utf8StringDecoder.fin ⟨[0xF0, 0x9F], 0, 2⟩ =
    .error (.invalidUtf8 0 none) from rfl] at h
  cases h

/-- C5 (amended): for every decoder implementing the minimum-length
capability (ByteArrayDecoder, ByteVecDecoder, U8Decoder,
Utf8StringDecoder, and Chain of two law-abiding such decoders),
min_required_bytes is non-increasing across successive successful
decode_chunk calls and never over-reported: a successful call offered at
least the reported n consumes exactly n bytes. When it reports n > 0 the
decoder is not terminal (end fails), and when it reports 0 a further
decode_chunk consumes nothing and end never fails for lack of bytes —
but end need not succeed: it may still fail with a content violation
(see the counterexample), so "zero iff end succeeds" does not hold.
Stated as: the two master consequences of the MinLaws interface, plus
the MinLaws instances for every listed decoder and the Chain closure. -/
theorem C5_min_required_bytes :
    (∀ (σ ε α : Type) (d : Dec σ ε α) (Inv : σ → Prop) (minR : σ → Nat)
      (missing : ε → Prop), MinLaws d Inv minR missing →
      ∀ s xs s' rem, Inv s → d.decode s xs = .ok (s', rem) →
        minR s' ≤ minR s ∧
        (minR s = 0 → rem.length = xs.length) ∧
        (minR s ≤ xs.length → xs.length - rem.length = minR s)) ∧
    (∀ (σ ε α : Type) (d : Dec σ ε α) (Inv : σ → Prop) (minR : σ → Nat)
      (missing : ε → Prop), MinLaws d Inv minR missing →
      ∀ s, Inv s →
        (0 < minR s → ∃ e, d.fin s = .error e) ∧
        (minR s = 0 → ∀ e, d.fin s = .error e → ¬ missing e)) ∧
    (∀ N, MinLaws (ByteArrayDecoder N) (ByteArrayInv N) (byteArrayMin N)
      (fun _ => True)) ∧
    MinLaws ByteVecDecoder ByteVecInv byteVecMin (fun _ => True) ∧
    MinLaws U8Decoder (fun _ => True) u8Min (fun _ => True) ∧
    MinLaws Utf8StringDecoder Utf8Inv utf8Min utf8Missing ∧
    (∀ (σA εA αA σB εB αB : Type) (A : Dec σA εA αA) (B : Dec σB εB αB)
      (InvA : σA → Prop) (InvB : σB → Prop) (mA : σA → Nat)
      (mB : σB → Nat) (missA : εA → Prop) (missB : εB → Prop),
      MinLaws A InvA mA missA → MinLaws B InvB mB missB →
      MinLaws (ChainDecoder A B) (ChainInv InvA InvB) (chainMin mA mB)
        (Sum.elim missA missB)) := by
  refine ⟨?_, ?_, byteArrayMinLaws, byteVecMinLaws, u8MinLaws, utf8MinLaws,
    ?_⟩
  · intro σ ε α d Inv minR missing L s xs s' rem hs hd
    obtain ⟨h1, h2⟩ := L.consume_exact s xs s' rem hs hd
    refine ⟨by omega, fun h0 => by omega, fun hle => by omega⟩
  · intro σ ε α d Inv minR missing L s hs
    exact ⟨L.fin_err_of_pos s hs, L.fin_not_missing s hs⟩
  · intro σA εA αA σB εB αB A B InvA InvB mA mB missA missB LA LB
    exact chainMinLaws LA LB

/-- Witness for C5: ByteArrayDecoder<2> from the empty state offered
[5, 6, 9] consumes exactly its reported minimum 2, the minimum drops
from 2 to 0, and at the reported minimum 2 > 0 its end fails. -/
theorem C5_witness :
    (ByteArrayInv 2 [] ∧
      (ByteArrayDecoder 2).decode [] [5, 6, 9] = .ok ([5, 6], [9])) ∧
    (byteArrayMin 2 [5, 6] ≤ byteArrayMin 2 [] ∧
      (byteArrayMin 2 [] = 0 →
        ([9] : List Nat).length = [5, 6, 9].length) ∧
      (byteArrayMin 2 [] ≤ [5, 6, 9].length →
        [5, 6, 9].length - ([9] : List Nat).length = byteArrayMin 2 [])) ∧
    (0 < byteArrayMin 2 [] → ∃ e, (ByteArrayDecoder 2).fin [] = .error e) :=
  ⟨⟨by simp [ByteArrayInv], rfl⟩,
    C5_min_required_bytes.1 (List Nat) UnexpectedEnd (List Nat)
      (ByteArrayDecoder 2) (ByteArrayInv 2) (byteArrayMin 2) (fun _ => True)
      (C5_min_required_bytes.2.2.1 2) [] [5, 6, 9] [5, 6] [9]
      (by simp [ByteArrayInv]) rfl,
    fun hpos => (C5_min_required_bytes.2.1 (List Nat) UnexpectedEnd
      (List Nat) (ByteArrayDecoder 2) (ByteArrayInv 2) (byteArrayMin 2)
      (fun _ => True) (C5_min_required_bytes.2.2.1 2) []
      (by simp [ByteArrayInv])).1 hpos⟩

/-! ### C6: position tracker under split consume calls -/

/-- Iterated `consume`: one call per schedule entry. -/
def consumeAll (E : Enc σ) : Tracker σ → List Nat → Tracker σ
  | t, [] => t
  | t, a :: rest => consumeAll E (consume E t a) rest

/-- The bytes a consumer takes from `encoded_chunk` before each
`consume(amount)` call of a schedule, concatenated. -/
def collect (E : Enc σ) : Tracker σ → List Nat → List Nat
  | _, [] => []
  | t, a :: rest => (trackerChunk E t).take a ++ collect E (consume E t a) rest

/-- A schedule is legal when every amount is at most the length of the
currently remaining chunk view. -/
def Legal (E : Enc σ) : Tracker σ → List Nat → Prop
  | _, [] => True
  | t, a :: rest => a ≤ (trackerChunk E t).length ∧ Legal E (consume E t a) rest

/-- The unsplit schedule: each remaining chunk consumed in one call. -/
def fullSched (E : Enc σ) : Nat → Tracker σ → List Nat
  | 0, _ => []
  | n + 1, t => (trackerChunk E t).length ::
      fullSched E n (consume E t (trackerChunk E t).length)

/-- `Parts S T`: schedule `S` refines schedule `T` by splitting each
amount of `T` into consecutive positive amounts with the same sum
(a short-write pattern: each write makes progress). -/
inductive Parts : List Nat → List Nat → Prop where
  | nil : Parts [] []
  | cons (p : List Nat) (a : Nat) (S T : List Nat) (hne : p ≠ [])
      (hpos : ∀ x ∈ p, 0 < x) (hsum : p.sum = a) (h : Parts S T) :
      Parts (p ++ S) (a :: T)

theorem collect_append (E : Enc σ) (S1 : List Nat) :
    ∀ (t : Tracker σ) (S2 : List Nat),
      collect E t (S1 ++ S2) =
        collect E t S1 ++ collect E (consumeAll E t S1) S2 := by
  induction S1 with
  | nil => intro t S2; rfl
  | cons a rest ih =>
    intro t S2
    simp only [List.cons_append, collect, consumeAll, List.append_eq, ih,
      List.append_assoc]

theorem consumeAll_append (E : Enc σ) (S1 : List Nat) :
    ∀ (t : Tracker σ) (S2 : List Nat),
      consumeAll E t (S1 ++ S2) = consumeAll E (consumeAll E t S1) S2 := by
  induction S1 with
  | nil => intro t S2; rfl
  | cons a rest ih =>
    intro t S2
    simp only [List.cons_append, consumeAll, List.append_eq, ih]

/-- Splitting one legal consume of `a` bytes into consecutive positive
amounts summing to `a` reaches the same tracker and hands the consumer
the same bytes. -/
theorem consume_split (E : Enc σ) (p : List Nat) :
    ∀ (t : Tracker σ) (a : Nat), p ≠ [] → (∀ x ∈ p, 0 < x) → p.sum = a →
      a ≤ (trackerChunk E t).length →
      consumeAll E t p = consume E t a ∧
      collect E t p = (trackerChunk E t).take a := by
  induction p with
  | nil => intro t a hne _ _ _; exact absurd rfl hne
  | cons x p' ih =>
    intro t a hne hpos hsum hle
    by_cases hp' : p' = []
    · subst hp'
      have hxa : x = a := by simpa using hsum
      subst hxa
      refine ⟨rfl, ?_⟩
      show (trackerChunk E t).take x ++ collect E (consume E t x) [] =
        (trackerChunk E t).take x
      simp [collect]
    · have hppos : ∀ z ∈ p', 0 < z := fun z hz =>
        hpos z (List.mem_cons_of_mem x hz)
      have hxpos : 0 < x := hpos x (List.mem_cons_self x p')
      have hsump : 0 < p'.sum := by
        cases p' with
        | nil => exact absurd rfl hp'
        | cons y p'' =>
          have := hppos y (by simp)
          simp only [List.sum_cons]
          omega
      have hsx : x + p'.sum = a := by simpa using hsum
      have hxa : x < a := by omega
      have hlen : (trackerChunk E t).length =
          (E.chunk t.enc).length - t.pos := by
        simp [trackerChunk]
      have hnolt : ¬ (E.chunk t.enc).length ≤ t.pos + x := by omega
      have hcx : consume E t x = ⟨t.enc, t.pos + x⟩ := by
        simp only [consume]
        rw [if_neg hnolt]
      have htc : trackerChunk E ⟨t.enc, t.pos + x⟩ =
          (trackerChunk E t).drop x := by
        simp only [trackerChunk, List.drop_drop]
      have hle' : a - x ≤ (trackerChunk E ⟨t.enc, t.pos + x⟩).length := by
        rw [htc, List.length_drop]
        omega
      obtain ⟨ih1, ih2⟩ := ih ⟨t.enc, t.pos + x⟩ (a - x)
        hp' hppos (by omega) hle'
      have hca : consume E ⟨t.enc, t.pos + x⟩ (a - x) = consume E t a := by
        simp only [consume]
        rw [show t.pos + x + (a - x) = t.pos + a from by omega]
      constructor
      · show consumeAll E (consume E t x) p' = consume E t a
        rw [hcx, ih1, hca]
      · show (trackerChunk E t).take x ++ collect E (consume E t x) p' =
          (trackerChunk E t).take a
        rw [hcx, ih2, htc, ← List.take_add]
        congr 1
        omega

/-- Any positive refinement of a legal schedule hands the consumer the
same bytes and leaves the tracker in the same state. -/
theorem parts_collect (E : Enc σ) {S T : List Nat} (hP : Parts S T) :
    ∀ t : Tracker σ, Legal E t T →
      collect E t S = collect E t T ∧
      consumeAll E t S = consumeAll E t T := by
  induction hP with
  | nil => intro t _; exact ⟨rfl, rfl⟩
  | cons p a S' T' hne hpos hsum hP' ih =>
    intro t hL
    have hle : a ≤ (trackerChunk E t).length := hL.1
    have hL' : Legal E (consume E t a) T' := hL.2
    obtain ⟨hca, hcc⟩ := consume_split E p t a hne hpos hsum hle
    obtain ⟨ih1, ih2⟩ := ih (consume E t a) hL'
    constructor
    · rw [collect_append, hcc, hca, ih1]
      rfl
    · rw [consumeAll_append, hca, ih2]
      rfl

theorem fullSched_legal (E : Enc σ) : ∀ (n : Nat) (t : Tracker σ),
    Legal E t (fullSched E n t) := by
  intro n
  induction n with
  | zero => intro t; trivial
  | succ n ih => intro t; exact ⟨Nat.le_refl _, ih _⟩

/-- C6: for every encoder and every splitting of its chunks into legal
positive `consume(amount)` calls, the concatenation of the byte prefixes
taken from the tracker's `encoded_chunk` before each consume equals the
concatenation obtained by consuming each chunk in one unsplit call, and
the final tracker state (offset included) is identical — no byte is lost
or duplicated. The unsplit per-chunk schedule is always legal. -/
theorem C6_tracker_consume :
    (∀ (σ : Type) (E : Enc σ) (t : Tracker σ) (S T : List Nat),
      Parts S T → Legal E t T →
      collect E t S = collect E t T ∧
      consumeAll E t S = consumeAll E t T) ∧
    (∀ (σ : Type) (E : Enc σ) (n : Nat) (t : Tracker σ),
      Legal E t (fullSched E n t)) :=
  ⟨fun _ E t _ _ hP hL => parts_collect E hP t hL,
    fun _ E n t => fullSched_legal E n t⟩

/-- Witness for C6: consuming the single 3-byte chunk of
`BytesEncoder [1, 2, 3]` as 1 + 2 bytes hands over the same bytes and
tracker state as one unsplit 3-byte consume. -/
theorem C6_witness :
    Parts [1, 2] [3] ∧
    Legal BytesEncoderE (trackerNew [1, 2, 3]) [3] ∧
    (collect BytesEncoderE (trackerNew [1, 2, 3]) [1, 2] =
      collect BytesEncoderE (trackerNew [1, 2, 3]) [3] ∧
      consumeAll BytesEncoderE (trackerNew [1, 2, 3]) [1, 2] =
        consumeAll BytesEncoderE (trackerNew [1, 2, 3]) [3]) :=
  have hP : Parts [1, 2] [3] :=
    Parts.cons [1, 2] 3 [] [] (by decide) (by decide) (by decide) Parts.nil
  have hL : Legal BytesEncoderE (trackerNew [1, 2, 3]) [3] :=
    ⟨by decide, trivial⟩
  ⟨hP, hL, C6_tracker_consume.1 (List Nat) BytesEncoderE
    (trackerNew [1, 2, 3]) [1, 2] [3] hP hL⟩

/-! ### C8: advancing an encoder past its end is idempotent -/

/-- The state after one `next` call (its boolean discarded). -/
def nextSt (E : Enc σ) (s : σ) : σ := (E.next s).1

/-- The state after `k` further `next` calls. -/
def stepN (E : Enc σ) : Nat → σ → σ
  | 0, s => s
  | k + 1, s => stepN E k (nextSt E s)

/-- Core advancing laws of an encoder over its reachable states `OK`,
with `D` the exhausted ("dead") states: reachability is preserved, a
`true` answer guarantees a non-empty chunk, a `false` answer lands in a
dead state, and dead states answer `false` and stay dead. -/
structure EncStopCore (E : Enc σ) (OK : σ → Prop) (D : σ → Prop) :
    Prop where
  ok_next : ∀ s, OK s → OK (E.next s).1
  true_nonempty : ∀ s, OK s → (E.next s).2 = true → E.chunk (E.next s).1 ≠ []
  enter : ∀ s, OK s → (E.next s).2 = false → D (E.next s).1
  stay_false : ∀ s, D s → (E.next s).2 = false
  stay_dead : ∀ s, D s → D (E.next s).1

/-- The core laws plus: a reachable state with an empty chunk is already
exhausted (needed to compose on the right of Chain, whose `next` probes
the second encoder's chunk). -/
structure EncStop (E : Enc σ) (OK : σ → Prop) (D : σ → Prop)
    extends EncStopCore E OK D : Prop where
  empty_dead : ∀ s, OK s → E.chunk s = [] → D s

/-- Once `next` answered `false` from a reachable state, every later
`next` also answers `false`. -/
theorem encStop_after_false {σ : Type} {E : Enc σ} {OK D : σ → Prop}
    (L : EncStopCore E OK D) (s : σ) (hOK : OK s)
    (hfalse : (E.next s).2 = false) :
    ∀ k, (E.next (stepN E k (nextSt E s))).2 = false := by
  have hD : D (nextSt E s) := L.enter s hOK hfalse
  have hall : ∀ k t, D t → D (stepN E k t) := by
    intro k
    induction k with
    | zero => intro t ht; exact ht
    | succ k ih => intro t ht; exact ih (nextSt E t) (L.stay_dead t ht)
  intro k
  exact L.stay_false _ (hall k _ hD)

theorem bytesEncStop :
    EncStop BytesEncoderE (fun _ => True) (fun _ => True) := by
  constructor
  constructor
  · intro s _; trivial
  · intro s _ h; cases h
  · intro s _ _; trivial
  · intro s _; rfl
  · intro s _; trivial
  · intro s _ _; trivial

theorem intEncStop :
    EncStop IntEncoderE (fun _ => True) (fun _ => True) := by
  rw [intEncoderE_eq_bytesEncoderE]
  exact bytesEncStop

/-- Reachable IterEncoder states: the current item's chunk is non-empty. -/
def iterOK : IterSt → Prop
  | .encoding cur _ => cur ≠ []
  | .done => True

/-- `iterAdvance` lands either on Done with `false` or on a non-empty
current item with `true`. -/
theorem iterAdvance_cases : ∀ rem : List (List Nat),
    iterAdvance rem = (.done, false) ∨
    ∃ x rest, iterAdvance rem = (.encoding x rest, true) ∧ x ≠ [] := by
  intro rem
  induction rem with
  | nil => exact Or.inl rfl
  | cons x rest ih =>
    by_cases hx : x = []
    · simpa [iterAdvance, hx] using ih
    · exact Or.inr ⟨x, rest, by simp [iterAdvance, hx], hx⟩

theorem iterEncStop :
    EncStop IterEncoderE iterOK (fun s => s = .done) := by
  have hnext : ∀ s : IterSt, iterOK s →
      IterEncoderE.next s = (.done, false) ∨
      ∃ x rest, IterEncoderE.next s = (.encoding x rest, true) ∧ x ≠ [] := by
    intro s hs
    cases s with
    | encoding cur rem => exact iterAdvance_cases rem
    | done => exact Or.inl rfl
  constructor
  constructor
  · intro s hs
    rcases hnext s hs with h | ⟨x, rest, h, hx⟩ <;> rw [h] <;> trivial
  · intro s hs htrue
    rcases hnext s hs with h | ⟨x, rest, h, hx⟩
    · rw [h] at htrue
      cases htrue
    · rw [h]
      exact hx
  · intro s hs hfalse
    rcases hnext s hs with h | ⟨x, rest, h, hx⟩
    · rw [h]
    · rw [h] at hfalse
      cases hfalse
  · intro s hs
    subst hs
    rfl
  · intro s hs
    subst hs
    rfl
  · intro s hs hchunk
    cases s with
    | encoding cur rem => exact absurd hchunk hs
    | done => rfl

/-- Reachable states of encoders::Chain: a live first stage is
reachable and has a non-empty chunk (the constructor elides empty first
stages and a `true` answer guarantees non-emptiness). -/
def chainEOK (A : Enc σA) (OKA : σA → Prop) (OKB : σB → Prop) :
    ChainESt σA σB → Prop := fun s =>
  match s.first with
  | some a => OKA a ∧ A.chunk a ≠ [] ∧ OKB s.second
  | none => OKB s.second

/-- Exhausted states of encoders::Chain. -/
def chainEDead (DB : σB → Prop) : ChainESt σA σB → Prop := fun s =>
  s.first = none ∧ DB s.second

theorem chainE_next_some (A : Enc σA) (B : Enc σB) (a : σA) (b : σB) :
    (ChainE A B).next ⟨some a, b⟩ =
      match A.next a with
      | (a', true) => (⟨some a', b⟩, true)
      | (_, false) => (⟨none, b⟩, !(B.chunk b).isEmpty) := rfl

theorem chainE_next_none (A : Enc σA) (B : Enc σB) (b : σB) :
    (ChainE A B).next ⟨none, b⟩ =
      (⟨none, (B.next b).1⟩, (B.next b).2) := by
  simp only [ChainE]

theorem chainENew_ok {A : Enc σA} {OKA : σA → Prop} {OKB : σB → Prop}
    {a : σA} {b : σB} (ha : OKA a) (hb : OKB b) :
    chainEOK A OKA OKB (chainENew A a b) := by
  unfold chainENew
  by_cases h : A.chunk a = []
  · rw [if_pos h]
    exact hb
  · rw [if_neg h]
    exact ⟨ha, h, hb⟩

theorem chainEncStop {σA σB : Type} {A : Enc σA} {B : Enc σB}
    {OKA DA : σA → Prop} {OKB DB : σB → Prop}
    (LA : EncStopCore A OKA DA) (LB : EncStop B OKB DB) :
    EncStop (ChainE A B) (chainEOK A OKA OKB) (chainEDead DB) := by
  constructor
  constructor
  · -- ok_next
    intro s hs
    obtain ⟨fo, b⟩ := s
    cases fo with
    | some a =>
      have hOKa : OKA a := hs.1
      have hOKb : OKB b := hs.2.2
      rw [chainE_next_some]
      rcases hA : A.next a with ⟨a', r⟩
      cases r with
      | true =>
        have h1 : OKA a' := by
          have := LA.ok_next a hOKa
          rwa [hA] at this
        have h2 : A.chunk a' ≠ [] := by
          have := LA.true_nonempty a hOKa (by rw [hA])
          rwa [hA] at this
        exact ⟨h1, h2, hOKb⟩
      | false => exact hOKb
    | none =>
      rw [chainE_next_none]
      exact LB.ok_next b hs
  · -- true_nonempty
    intro s hs htrue
    obtain ⟨fo, b⟩ := s
    cases fo with
    | some a =>
      have hOKa : OKA a := hs.1
      rw [chainE_next_some] at htrue ⊢
      rcases hA : A.next a with ⟨a', r⟩
      rw [hA] at htrue
      cases r with
      | true =>
        have := LA.true_nonempty a hOKa (by rw [hA])
        rw [hA] at this
        exact this
      | false =>
        show B.chunk b ≠ []
        simpa using htrue
    | none =>
      rw [chainE_next_none] at htrue ⊢
      show B.chunk (B.next b).1 ≠ []
      exact LB.true_nonempty b hs htrue
  · -- enter
    intro s hs hfalse
    obtain ⟨fo, b⟩ := s
    cases fo with
    | some a =>
      have hOKb : OKB b := hs.2.2
      rw [chainE_next_some] at hfalse ⊢
      rcases hA : A.next a with ⟨a', r⟩
      rw [hA] at hfalse
      cases r with
      | true => simp at hfalse
      | false =>
        have hempty : B.chunk b = [] := by simpa using hfalse
        exact ⟨rfl, LB.empty_dead b hOKb hempty⟩
    | none =>
      rw [chainE_next_none] at hfalse ⊢
      exact ⟨rfl, LB.enter b hs hfalse⟩
  · -- stay_false
    intro s hd
    obtain ⟨fo, b⟩ := s
    obtain ⟨hfo, hdb⟩ := hd
    simp only at hfo
    subst hfo
    rw [chainE_next_none]
    exact LB.stay_false b hdb
  · -- stay_dead
    intro s hd
    obtain ⟨fo, b⟩ := s
    obtain ⟨hfo, hdb⟩ := hd
    simp only at hfo
    subst hfo
    rw [chainE_next_none]
    exact ⟨rfl, LB.stay_dead b hdb⟩
  · -- empty_dead
    intro s hs hchunk
    obtain ⟨fo, b⟩ := s
    cases fo with
    | some a =>
      have hAne : A.chunk a ≠ [] := hs.2.1
      exact absurd hchunk hAne
    | none => exact ⟨rfl, LB.empty_dead b hs hchunk⟩

/-- Reachable states of encoders::Then. -/
def thenEOK (OKA : σA → Prop) (OKB : σB → Prop) : ThenESt σA σB → Prop
  | .first a => OKA a
  | .second b => OKB b

/-- Exhausted states of encoders::Then (always in the second stage). -/
def thenEDead (DB : σB → Prop) : ThenESt σA σB → Prop
  | .first _ => False
  | .second b => DB b

theorem thenE_next_first (A : Enc σA) (B : Enc σB) (f : Unit → σB)
    (a : σA) :
    (ThenE A B f).next (.first a) =
      match A.next a with
      | (a', true) => (.first a', true)
      | (_, false) => (.second (f ()), !(B.chunk (f ())).isEmpty) := rfl

theorem thenE_next_second (A : Enc σA) (B : Enc σB) (f : Unit → σB)
    (b : σB) :
    (ThenE A B f).next (.second b) =
      (.second (B.next b).1, (B.next b).2) := by
  simp only [ThenE]

theorem thenEncStopCore {σA σB : Type} {A : Enc σA} {B : Enc σB}
    {OKA DA : σA → Prop} {OKB DB : σB → Prop} {f : Unit → σB}
    (LA : EncStopCore A OKA DA) (LB : EncStop B OKB DB)
    (hf : OKB (f ())) :
    EncStopCore (ThenE A B f) (thenEOK OKA OKB) (thenEDead DB) := by
  constructor
  · -- ok_next
    intro s hs
    cases s with
    | first a =>
      rw [thenE_next_first]
      rcases hA : A.next a with ⟨a', r⟩
      cases r with
      | true =>
        show OKA a'
        have := LA.ok_next a hs
        rwa [hA] at this
      | false => exact hf
    | second b =>
      rw [thenE_next_second]
      exact LB.ok_next b hs
  · -- true_nonempty
    intro s hs htrue
    cases s with
    | first a =>
      rw [thenE_next_first] at htrue ⊢
      rcases hA : A.next a with ⟨a', r⟩
      rw [hA] at htrue
      cases r with
      | true =>
        show A.chunk a' ≠ []
        have := LA.true_nonempty a hs (by rw [hA])
        rwa [hA] at this
      | false =>
        show B.chunk (f ()) ≠ []
        simpa using htrue
    | second b =>
      rw [thenE_next_second] at htrue ⊢
      exact LB.true_nonempty b hs htrue
  · -- enter
    intro s hs hfalse
    cases s with
    | first a =>
      rw [thenE_next_first] at hfalse ⊢
      rcases hA : A.next a with ⟨a', r⟩
      rw [hA] at hfalse
      cases r with
      | true => simp at hfalse
      | false =>
        show DB (f ())
        exact LB.empty_dead (f ()) hf (by simpa using hfalse)
    | second b =>
      rw [thenE_next_second] at hfalse ⊢
      exact LB.enter b hs hfalse
  · -- stay_false
    intro s hd
    cases s with
    | first a => exact absurd hd (by simp [thenEDead])
    | second b =>
      rw [thenE_next_second]
      exact LB.stay_false b hd
  · -- stay_dead
    intro s hd
    cases s with
    | first a => exact absurd hd (by simp [thenEDead])
    | second b =>
      rw [thenE_next_second]
      exact LB.stay_dead b hd

/-- C8: advancing any provided encoder past its end is idempotent — for
the leaf encoders BytesEncoder, IntEncoder and IterEncoder and the
encoder combinators Chain and Then over law-abiding stages, once `next`
has answered `false` from a reachable state, every subsequent `next`
call also answers `false`. Stated as the master consequence of the
advancing laws plus their instances for every listed encoder and the
two combinator closures. -/
theorem C8_next_idempotent :
    (∀ (σ : Type) (E : Enc σ) (OK D : σ → Prop), EncStopCore E OK D →
      ∀ s, OK s → (E.next s).2 = false →
      ∀ k, (E.next (stepN E k (nextSt E s))).2 = false) ∧
    EncStop BytesEncoderE (fun _ => True) (fun _ => True) ∧
    EncStop IntEncoderE (fun _ => True) (fun _ => True) ∧
    EncStop IterEncoderE iterOK (fun s => s = .done) ∧
    (∀ (σA σB : Type) (A : Enc σA) (B : Enc σB) (OKA DA : σA → Prop)
      (OKB DB : σB → Prop), EncStopCore A OKA DA → EncStop B OKB DB →
      EncStop (ChainE A B) (chainEOK A OKA OKB) (chainEDead DB)) ∧
    (∀ (σA σB : Type) (A : Enc σA) (B : Enc σB) (OKA DA : σA → Prop)
      (OKB DB : σB → Prop) (f : Unit → σB), EncStopCore A OKA DA →
      EncStop B OKB DB → OKB (f ()) →
      EncStopCore (ThenE A B f) (thenEOK OKA OKB) (thenEDead DB)) :=
  ⟨fun _ _ _ _ L s hOK hf k => encStop_after_false L s hOK hf k,
    bytesEncStop, intEncStop, iterEncStop,
    fun _ _ _ _ _ _ _ _ LA LB => chainEncStop LA LB,
    fun _ _ _ _ _ _ _ _ _ LA LB hf => thenEncStopCore LA LB hf⟩

/-- Witness for C8: the IterEncoder holding the single item [1] answers
`false` on its first `next`, and still answers `false` two further
`next` calls later. -/
theorem C8_witness :
    iterOK (.encoding [1] []) ∧
    (IterEncoderE.next (.encoding [1] [])).2 = false ∧
    (IterEncoderE.next (stepN IterEncoderE 2
      (nextSt IterEncoderE (.encoding [1] [])))).2 = false :=
  ⟨by simp [iterOK], rfl,
    C8_next_idempotent.1 IterSt IterEncoderE iterOK (fun s => s = .done)
      C8_next_idempotent.2.2.2.1.toEncStopCore (.encoding [1] [])
      (by simp [iterOK]) rfl 2⟩

/-! ### C7: IterEncoder skips empty items -/

/-- The constructor always lands on a reachable state: either Done or a
non-empty current item. -/
theorem iterNew_ok : ∀ items, iterOK (iterNew items) := by
  intro items
  induction items with
  | nil => trivial
  | cons x rest ih =>
    by_cases hx : x = []
    · simpa [iterNew, hx] using ih
    · have hstep : iterNew (x :: rest) = .encoding x rest := by
        simp [iterNew, hx]
      rw [hstep]
      exact hx

/-- C7: for the item list [empty, empty, [x], [y, z]] the sequence of
chunks observed through encoded_chunk/next is exactly the two non-empty
items in order — construction skips both leading empties, each observed
chunk is one full item, the advance after the last item reports no more
data, and the total collected output is [x, y, z]. Moreover the
constructor always yields a reachable state, and in every reachable
state where next announced more data the new chunk is non-empty. -/
theorem C7_iter_skips_empty (x y z : Nat) :
    iterNew [[], [], [x], [y, z]] = .encoding [x] [[y, z]] ∧
    IterEncoderE.chunk (.encoding [x] [[y, z]]) = [x] ∧
    IterEncoderE.next (.encoding [x] [[y, z]]) =
      (.encoding [y, z] [], true) ∧
    IterEncoderE.chunk (.encoding [y, z] []) = [y, z] ∧
    IterEncoderE.next (.encoding [y, z] []) = (.done, false) ∧
    IterEncoderE.chunk .done = [] ∧
    writeToVec IterEncoderE 3 (iterNew [[], [], [x], [y, z]]) =
      [x, y, z] ∧
    (∀ items, iterOK (iterNew items)) ∧
    (∀ s, iterOK s → (IterEncoderE.next s).2 = true →
      IterEncoderE.chunk (IterEncoderE.next s).1 ≠ []) :=
  ⟨rfl, rfl, rfl, rfl, rfl, rfl, rfl, iterNew_ok,
    iterEncStop.toEncStopCore.true_nonempty⟩

/-- Witness for C7: the concrete run at items [[], [], [1], [2, 3]]. -/
theorem C7_witness :
    iterOK (.encoding [1] [[2, 3]]) ∧
    (IterEncoderE.next (.encoding [1] [[2, 3]])).2 = true ∧
    writeToVec IterEncoderE 3 (iterNew [[], [], [1], [2, 3]]) =
      [1, 2, 3] ∧
    IterEncoderE.chunk (IterEncoderE.next (.encoding [1] [[2, 3]])).1 ≠
      [] :=
  ⟨by simp [iterOK], rfl, (C7_iter_skips_empty 1 2 3).2.2.2.2.2.2.1,
    (C7_iter_skips_empty 1 2 3).2.2.2.2.2.2.2.2 (.encoding [1] [[2, 3]])
      (by simp [iterOK]) rfl⟩

end PushDecode
